import Mathlib

/-!
Verification development for the SDF shape-tree evaluation engine of the
PBR-Engine repository (files `scripts/sdf_extraction.py` and
`scripts/batch_sdf_jobs.py`).

Modelling conventions of the shallow embedding:
* IEEE-754 double arithmetic is idealised as real (`ℝ`) arithmetic.
* A numpy `(N,3)` point batch is a `List Vec3`; vectorised numpy kernels
  become `List.map` of a per-point function (every kernel in the source is
  per-point: each output entry depends only on the corresponding input row).
* Python dictionaries (shape specifications and parameter tables) are
  association lists `List (String × Value)` that preserve insertion order;
  `dset` models `d[k] = v` (overwrite in place, else append).  JSON numbers
  are carried as rationals.
* Python `raise ValueError(msg)` becomes `Except.error msg`; the messages are
  the exact source strings.
* The int64 overflow arithmetic of `hash_vec3` is modelled on `ℕ` modulo
  `2^64` (the two complement bit pattern), which `Nat.xor`/`Nat.land`
  act on exactly as the machine operations do.
-/

namespace SDF

/-- A JSON-compatible parameter value as stored in a shape-spec dictionary:
a number, a string, or a (possibly nested) array.  Numbers are kept as
rationals, faithful to decimal literals of the source. -/
inductive Value : Type where
  | num (q : ℚ)
  | str (s : String)
  | arr (elems : List Value)
deriving Repr

/-- A Python dict with string keys, as an insertion-ordered association list. -/
abbrev Params := List (String × Value)

/-- Python `d[k] = v`: overwrite the value in place if the key is present
(keeping its position), otherwise append the new pair at the end. -/
def dset : Params → String → Value → Params
  | [], k, v => [(k, v)]
  | (k1, v1) :: rest, k, v =>
    if k1 = k then (k, v) :: rest else (k1, v1) :: dset rest k v

/-- The loop `for key, value in defaults.items(): merged[key] = value`
(lines 451-456 of `sdf_extraction.py`). -/
def overlayDefaults (d : Params) (upd : Params) : Params :=
  upd.foldl (fun acc kv => dset acc kv.1 kv.2) d

/-- The loop over the user spec (lines 458-461): every key except
`type` and `children` is written into the merged dict. -/
def overlayUser (d : Params) (upd : Params) : Params :=
  upd.foldl
    (fun acc kv => if kv.1 = "type" ∨ kv.1 = "children" then acc else dset acc kv.1 kv.2)
    d

/-- The keys of `SDF_EVALUATORS` (line 367): the registered shape types. -/
def evaluatorNames : List String :=
  ["sdf_sphere", "sdf_plane", "sdf_round_box", "sdf_sphere_sine",
   "sdf_fbm_noise", "sdf_fbm_noise_sphere", "sdf_menger_sponge",
   "sdf_capped_cylinder", "sdf_mandelbulb", "sdf_julia",
   "sdf_union", "sdf_intersection", "sdf_difference"]

/-- `BASE_DEFAULTS` (line 384). -/
def baseDefaults : Params :=
  [("translate", .arr [.num 0, .num 0, .num 0]), ("scale", .num 1)]

/-- The fBm warp matrix shared by the two noise defaults (lines 404-408). -/
def warpMatrixValue : Value :=
  .arr [.arr [.num 0, .num 0.80, .num 0.60],
        .arr [.num (-0.80), .num 0.36, .num (-0.48)],
        .arr [.num (-0.60), .num (-0.48), .num 0.64]]

/-- `DEFAULT_SHAPE_PARAMS` (lines 386-440), as an association table. -/
def defaultsTable : List (String × Params) :=
  [("sdf_sphere", [("radius", .num 1)]),
   ("sdf_plane", [("normal", .arr [.num 0, .num 1, .num 0]), ("offset", .num 0)]),
   ("sdf_round_box",
     [("half_extent", .arr [.num 1, .num 1, .num 1]), ("radius", .num 0.25)]),
   ("sdf_sphere_sine",
     [("radius", .num 1),
      ("displacement_freq", .arr [.num 1, .num 1, .num 1]),
      ("displacement_amp", .num 1),
      ("displacement_axis_amp", .arr [.num 1, .num 1, .num 1])]),
   ("sdf_fbm_noise",
     [("half_extent", .arr [.num 1, .num 1, .num 1]),
      ("corner_radius", .num 0.1),
      ("offset", .arr [.num 0.5, .num 0.5, .num 0.5]),
      ("octaves", .num 6), ("frequency", .num 2), ("gain", .num 0.55),
      ("blend", .num 0.15), ("warp_matrix", warpMatrixValue),
      ("noise_variant", .str "lattice")]),
   ("sdf_fbm_noise_sphere",
     [("radius", .num 1.1),
      ("offset", .arr [.num 0.5, .num 0.5, .num 0.5]),
      ("octaves", .num 6), ("frequency", .num 2), ("gain", .num 0.55),
      ("blend", .num 0.15), ("warp_matrix", warpMatrixValue),
      ("noise_variant", .str "lattice")]),
   ("sdf_menger_sponge", [("half_size", .num 1), ("iterations", .num 4)]),
   ("sdf_capped_cylinder", [("radius", .num 1), ("half_height", .num 1)]),
   ("sdf_mandelbulb",
     [("power", .num 8), ("max_iterations", .num 12), ("bailout", .num 8),
      ("solid_radius", .num 0)]),
   ("sdf_julia",
     [("constant", .arr [.num 0.355, .num 0.355, .num 0.355]),
      ("max_iterations", .num 25), ("bailout", .num 6),
      ("solid_radius", .num 0)]),
   ("sdf_union", []), ("sdf_intersection", []), ("sdf_difference", [])]

/-- `DEFAULT_SHAPE_PARAMS.get(shape_type, {})` (line 454). -/
def defaultShapeParams (ty : String) : Params :=
  (defaultsTable.lookup ty).getD []

/-- A partial (user supplied) or resolved shape specification: the `type`
key, the remaining scalar entries in insertion order, and the optional
`children` key.  `type` and `children` are carried structurally, exactly
the two keys that `merge_defaults` handles specially. -/
inductive PSpec : Type where
  | mk (ty : String) (entries : Params) (children : Option (List PSpec))

mutual

/-- `merge_defaults` (lines 443-466): overlay the base defaults, the
type-specific default table and then the user entries; recursively resolve
`children` when present.  An unregistered type is a `ValueError`, modelled
as `none` (the missing-`type` error cannot arise here because `PSpec`
carries the type structurally). -/
def merge_defaults : PSpec → Option PSpec
  | .mk ty entries children =>
    if evaluatorNames.contains ty then
      let defaulted := overlayUser (overlayDefaults baseDefaults (defaultShapeParams ty)) entries
      match children with
      | none => some (.mk ty defaulted none)
      | some cs => (mergeChildrenList cs).map fun ds => .mk ty defaulted (some ds)
    else none

/-- `[merge_defaults(child) for child in spec["children"]]` (line 464). -/
def mergeChildrenList : List PSpec → Option (List PSpec)
  | [] => some []
  | c :: cs => do
      let d ← merge_defaults c
      let ds ← mergeChildrenList cs
      pure (d :: ds)

end

/-- Python `int(x)`: truncation toward zero. -/
def pyInt (q : ℚ) : ℤ := if 0 ≤ q then ⌊q⌋ else ⌈q⌉

noncomputable section

/-- One row of an `(N,3)` numpy batch. -/
structure Vec3 where
  x : ℝ
  y : ℝ
  z : ℝ

instance : Add Vec3 := ⟨fun a b => ⟨a.x + b.x, a.y + b.y, a.z + b.z⟩⟩

instance : Sub Vec3 := ⟨fun a b => ⟨a.x - b.x, a.y - b.y, a.z - b.z⟩⟩

/-- Scalar multiplication of a point batch row. -/
def smul3 (a : ℝ) (v : Vec3) : Vec3 := ⟨a * v.x, a * v.y, a * v.z⟩

/-- Componentwise division by a scalar. -/
def vdiv (v : Vec3) (a : ℝ) : Vec3 := ⟨v.x / a, v.y / a, v.z / a⟩

/-- `np.abs`, componentwise. -/
def vabs (v : Vec3) : Vec3 := ⟨|v.x|, |v.y|, |v.z|⟩

/-- Broadcast of a scalar to a 3-vector. -/
def vconst (a : ℝ) : Vec3 := ⟨a, a, a⟩

/-- `np.maximum(v, a)` against a scalar, componentwise. -/
def vmax (v : Vec3) (a : ℝ) : Vec3 := ⟨max v.x a, max v.y a, max v.z a⟩

/-- Dot product. -/
def dot (a b : Vec3) : ℝ := a.x * b.x + a.y * b.y + a.z * b.z

/-- `np.linalg.norm(v)` for one row. -/
def norm3 (v : Vec3) : ℝ := Real.sqrt (v.x ^ 2 + v.y ^ 2 + v.z ^ 2)

/-- `np.max(q, axis=1)` over the three components (left-to-right reduce). -/
def maxComp (v : Vec3) : ℝ := max (max v.x v.y) v.z

/-- numpy `%` on floats: `x - m * floor(x / m)` (sign follows the divisor). -/
def fmod (x m : ℝ) : ℝ := x - m * (⌊x / m⌋ : ℤ)

/-- Componentwise float `%`. -/
def vmod (v : Vec3) (m : ℝ) : Vec3 := ⟨fmod v.x m, fmod v.y m, fmod v.z m⟩

/-- A 3×3 matrix as three rows.  `points @ W.T` applies `W` row-wise to
each point, i.e. maps `p` to `W p`. -/
structure Mat3 where
  r0 : Vec3
  r1 : Vec3
  r2 : Vec3

/-- Matrix-vector product: the per-point meaning of `warped @ warp_matrix.T`. -/
def mulVec (M : Mat3) (v : Vec3) : Vec3 := ⟨dot M.r0 v, dot M.r1 v, dot M.r2 v⟩

/-- `smooth_max` (lines 32-37): ordinary maximum for `k ≤ 0`, otherwise a
quadratic blend over the `|a-b| < k` transition band
(`np.clip(v, 0, 1) = min (max v 0) 1`). -/
def smooth_max (a b k : ℝ) : ℝ :=
  if k ≤ 0 then max a b
  else
    let diff := |a - b|
    let h := min (max ((k - diff) / k) 0) 1
    max a b + 0.25 * h * h * k

/-- Reduce an integer to its 64-bit two-complement bit pattern in `[0, 2^64)`. -/
def u64 (z : ℤ) : ℕ := (z % 18446744073709551616).toNat

/-- Wrap a natural to 64 bits (int64 overflow). -/
def wrap64 (n : ℕ) : ℕ := n % 18446744073709551616

/-- `hash_vec3` (lines 40-47) on one integer lattice cell.  All products and
sums wrap as int64; `<< 13` is multiplication by `2^13 = 8192`; `^` is
bitwise xor; `& 0x7FFFFFFF` keeps the low 31 bits; the result lies in
`(-1, 1]`. -/
def hash_vec3 (a b c : ℤ) : ℝ :=
  let n : ℕ := u64 (a * 15731 + b * 789221 + c * 13763125899)
  let n2 : ℕ := Nat.xor (wrap64 (n * 8192)) n
  let nn : ℕ := wrap64 (n2 * (wrap64 (n2 * n2 * 15731) + 789221) + 13763125899)
  1 - ((Nat.land nn 2147483647 : ℕ) : ℝ) / 1073741824

/-- Minimum of a batch column (`np.min` seeded with the first entry; the
source seeds with `inf`, which is equivalent).  Empty input yields `0`
(never reached by the source). -/
def pointMin : List ℝ → ℝ
  | [] => 0
  | x :: xs => xs.foldl min x

/-- Maximum of a batch column, as `pointMin`. -/
def pointMax : List ℝ → ℝ
  | [] => 0
  | x :: xs => xs.foldl max x

/-- `sd_base_lattice` (lines 50-63) on one point: minimum over the 8 cell
corners of the distance to a hashed sphere (`radius = |hash|^2 * 0.7`). -/
def sd_base_lattice (p : Vec3) : ℝ :=
  let cx : ℤ := ⌊p.x⌋
  let cy : ℤ := ⌊p.y⌋
  let cz : ℤ := ⌊p.z⌋
  let frac : Vec3 := ⟨p.x - cx, p.y - cy, p.z - cz⟩
  let corner : ℤ → ℤ → ℤ → ℝ := fun dx dy dz =>
    norm3 (frac - ⟨(dx : ℝ), (dy : ℝ), (dz : ℝ)⟩) -
      |hash_vec3 (cx + dx) (cy + dy) (cz + dz)| ^ 2 * 0.7
  pointMin
    [corner 0 0 0, corner 0 0 1, corner 0 1 0, corner 0 1 1,
     corner 1 0 0, corner 1 0 1, corner 1 1 0, corner 1 1 1]

/-- `sd_base_simplex` (lines 66-100) on one point.  The simplex corner
offsets `i1`, `i2` are 0/1-valued floats; their int64 casts (used by
`hash_vec3`) are taken exactly. -/
def sd_base_simplex (p : Vec3) : ℝ :=
  let k1 : ℝ := 1 / 3
  let k2 : ℝ := 1 / 6
  let s := p.x + p.y + p.z
  let ix : ℤ := ⌊p.x + s * k1⌋
  let iy : ℤ := ⌊p.y + s * k1⌋
  let iz : ℤ := ⌊p.z + s * k1⌋
  let t : ℝ := ((ix : ℝ) + iy + iz) * k2
  let d0 : Vec3 := ⟨p.x - (ix - t), p.y - (iy - t), p.z - (iz - t)⟩
  let ex : ℝ := if d0.y < d0.x then 1 else 0
  let ey : ℝ := if d0.z < d0.y then 1 else 0
  let ez : ℝ := if d0.x < d0.z then 1 else 0
  let exi : ℤ := if d0.y < d0.x then 1 else 0
  let eyi : ℤ := if d0.z < d0.y then 1 else 0
  let ezi : ℤ := if d0.x < d0.z then 1 else 0
  let i1 : Vec3 := ⟨ex * (1 - ez), ey * (1 - ex), ez * (1 - ey)⟩
  let i2 : Vec3 := ⟨1 - ex * (1 - ez), 1 - ey * (1 - ex), 1 - ez * (1 - ey)⟩
  let d1 : Vec3 := d0 - i1 + vconst k2
  let d2 : Vec3 := d0 - i2 + vconst (2 * k2)
  let d3 : Vec3 := d0 - vconst 0.5
  let r0 := hash_vec3 ix iy iz
  let r1 := hash_vec3 (ix + exi * (1 - ezi)) (iy + eyi * (1 - exi)) (iz + ezi * (1 - eyi))
  let r2 := hash_vec3 (ix + (1 - exi * (1 - ezi))) (iy + (1 - eyi * (1 - exi)))
      (iz + (1 - ezi * (1 - eyi)))
  let r3 := hash_vec3 (ix + 1) (iy + 1) (iz + 1)
  let sph : Vec3 → ℝ → ℝ := fun delta r => norm3 delta - 0.55 * r ^ 2
  pointMin [sph d0 r0, sph d1 r1, sph d2 r2, sph d3 r3]

/-- Select the base noise kernel by variant (line 117/120). -/
def fbmNoiseAt (useSimplex : Bool) (p : Vec3) : ℝ :=
  if useSimplex then sd_base_simplex p else sd_base_lattice p

/-- The octave loop of `sd_fbm` (lines 119-125), batch form.  State:
remaining octaves, running `result`, `amp`, `freq`, warped points. -/
def sd_fbmGo (useSimplex : Bool) (frequency gain blend : ℝ) (W : Mat3) :
    ℕ → List ℝ → ℝ → ℝ → List Vec3 → List ℝ
  | 0, result, _, _, _ => result
  | n + 1, result, amp, freq, warped =>
    let noise := warped.map fun p => amp * fbmNoiseAt useSimplex (smul3 freq p)
    let result2 := List.zipWith (fun r nz => smooth_max r (-nz) (blend * amp)) result noise
    sd_fbmGo useSimplex frequency gain blend W n result2 (amp * gain) (freq * frequency)
      (warped.map (mulVec W))

/-- `sd_fbm` (lines 103-127): `octaves` smooth-max noise rounds over a
base distance, with domain warping between octaves.  A negative `octaves`
(possible through `int(params["octaves"])`) runs zero rounds, hence the
`ℕ` octave count at this level. -/
def sd_fbm (points : List Vec3) (base_distance : List ℝ) (octaves : ℕ)
    (frequency gain blend : ℝ) (warp_matrix : Mat3) (variant : String) : List ℝ :=
  sd_fbmGo (variant.toLower == "simplex") frequency gain blend warp_matrix
    octaves base_distance 1 1 points

/-- The octave loop on one point (the batch loop is per-point: `smooth_max`
and the warp act elementwise). -/
def sd_fbmGoPoint (useSimplex : Bool) (frequency gain blend : ℝ) (W : Mat3) :
    ℕ → ℝ → ℝ → ℝ → Vec3 → ℝ
  | 0, result, _, _, _ => result
  | n + 1, result, amp, freq, warped =>
    sd_fbmGoPoint useSimplex frequency gain blend W n
      (smooth_max result (-(amp * fbmNoiseAt useSimplex (smul3 freq warped))) (blend * amp))
      (amp * gain) (freq * frequency) (mulVec W warped)

/-- `sdf_sphere` (lines 130-132) on one point. -/
def sdf_spherePoint (radius : ℝ) (p : Vec3) : ℝ := norm3 p - radius

/-- `sdf_plane` (lines 135-143) on one point: a degenerate (near-zero)
normal falls back to `+Y`; otherwise the normal is normalised. -/
def sdf_planePoint (normal : Vec3) (offset : ℝ) (p : Vec3) : ℝ :=
  let nrm := norm3 normal
  let nhat := if nrm ≤ 1e-12 then (⟨0, 1, 0⟩ : Vec3) else vdiv normal nrm
  dot p nhat + offset

/-- `sdf_round_box` (lines 146-152) on one point. -/
def sdf_round_boxPoint (half_extent : Vec3) (radius : ℝ) (p : Vec3) : ℝ :=
  let q := vabs p - half_extent + vconst radius
  norm3 (vmax q 0) + min (maxComp q) 0 - radius

/-- `sdf_sphere_sine` (lines 155-165) on one point. -/
def sdf_sphere_sinePoint (radius : ℝ) (displacement_freq displacement_axis_amp : Vec3)
    (displacement_amp : ℝ) (p : Vec3) : ℝ :=
  let dispX := Real.sin (displacement_freq.x * p.x) * displacement_axis_amp.x
  let dispY := Real.sin (displacement_freq.y * p.y) * displacement_axis_amp.y
  let dispZ := Real.sin (displacement_freq.z * p.z) * displacement_axis_amp.z
  (norm3 p - radius) + displacement_amp * (dispX * dispY * dispZ)

/-- The rounded-box base distance of `sdf_fbm_noise` (lines 179-182). -/
def fbmNoiseBasePoint (half_extent : Vec3) (corner_radius : ℝ) (p : Vec3) : ℝ :=
  let q := vabs p - half_extent + vconst corner_radius
  norm3 (vmax q 0) + min (maxComp q) 0 - corner_radius

/-- `sdf_capped_cylinder` (lines 231-238) on one point. -/
def sdf_capped_cylinderPoint (radius half_height : ℝ) (p : Vec3) : ℝ :=
  let radial := Real.sqrt (p.x ^ 2 + p.z ^ 2)
  let d0 := radial - radius
  let d1 := |p.y| - half_height
  Real.sqrt (max d0 0 ^ 2 + max d1 0 ^ 2) + min (max d0 d1) 0

/-- The folding loop of `sdf_menger_sponge` (lines 218-226) on one point:
fold into `[-1,1]` via `(3p) mod 2 - 1`, accumulate the cross cutout
distance at the running scale, intersect via `max`. -/
def mengerGo : ℕ → Vec3 → ℝ → ℝ → ℝ
  | 0, _, _, d => d
  | n + 1, p, scale, d =>
    let p2 := vmod (smul3 3 p) 2 - vconst 1
    let scale2 := scale * 3
    let r := vconst 1 - smul3 3 (vabs p2)
    let da := max |r.x| |r.y|
    let db := max |r.y| |r.z|
    let dc := max |r.z| |r.x|
    let c := (min (min da db) dc - 1) / scale2
    mengerGo n p2 scale2 (max d c)

/-- `sdf_menger_sponge` (lines 207-228) on one point.  Note the source
clamps: `half_size` to at least `1e-8` and `iterations` to at least `1`. -/
def sdf_menger_spongePoint (half_size : ℝ) (iterations : ℤ) (p0 : Vec3) : ℝ :=
  let hs := max half_size 1e-8
  let iter := (max iterations 1).toNat
  let p := vdiv p0 hs
  let q := vabs p - vconst 1
  let d := norm3 (vmax q 0) + min (maxComp q) 0
  mengerGo iter p 1 d * hs

/-- The plain box distance of `half_size` with no folding step applied:
lines 211-215 followed directly by the rescale of line 228. -/
def mengerBoxOnly (half_size : ℝ) (p0 : Vec3) : ℝ :=
  let hs := max half_size 1e-8
  let p := vdiv p0 hs
  let q := vabs p - vconst 1
  (norm3 (vmax q 0) + min (maxComp q) 0) * hs

/-- The numerical floor `eps = 1e-8` of the fractal kernels (lines 250, 302). -/
def bulbEps : ℝ := 1e-8

/-- `np.arctan2(y, x)`, the principal-value polar angle of `(x, y)`. -/
def arctan2 (y x : ℝ) : ℝ := Complex.arg ⟨x, y⟩

/-- `np.clip(v, lo, hi)`. -/
def clip (v lo hi : ℝ) : ℝ := min (max v lo) hi

/-- One masked iteration of the Mandelbulb/Julia loop (lines 252-280 /
304-332) on one point.  A lane is active while `eps < r ≤ bailout`; an
inactive lane keeps its state (numpy updates only `z[active]`); the early
`break` of the batch loop fires when no lane is active and is therefore
per-point semantically invisible. -/
def bulbStep (power bailout : ℝ) (c : Vec3) (st : Vec3 × ℝ × ℝ) : Vec3 × ℝ × ℝ :=
  let z := st.1
  let dr := st.2.1
  let r := st.2.2
  if bulbEps < r ∧ r ≤ bailout then
    let theta := Real.arccos (clip (z.z / r) (-1) 1) * power
    let phi := arctan2 z.y z.x * power
    let zr := Real.rpow r power
    let dr2 := power * Real.rpow r (power - 1) * dr + 1
    let newZ : Vec3 :=
      ⟨zr * Real.sin theta * Real.cos phi,
       zr * Real.sin theta * Real.sin phi,
       zr * Real.cos theta⟩ + c
    (newZ, dr2, norm3 newZ)
  else st

/-- The full iteration: `max_iterations` masked steps from
`z = p, dr = 1, r = ‖z‖`. -/
def bulbIter (power bailout : ℝ) (c : Vec3) (n : ℕ) (z0 : Vec3) : Vec3 × ℝ × ℝ :=
  (bulbStep power bailout c)^[n] (z0, 1, norm3 z0)

/-- The distance readout (lines 282-290 / 334-342): `0.5·ln(r)·r/dr` only
where `r > eps` (zero otherwise), then the `solid_radius` interior
override `-(solid_radius - r)` where `solid_radius > 0` and `r < solid_radius`. -/
def bulbDistance (solid_radius : ℝ) (st : Vec3 × ℝ × ℝ) : ℝ :=
  let dr := st.2.1
  let r := st.2.2
  let d := if bulbEps < r then 0.5 * Real.log r * r / dr else 0
  if 0 < solid_radius ∧ r < solid_radius then -(solid_radius - r) else d

/-- `sdf_mandelbulb` (lines 241-290) on one point: `c` is the sample point. -/
def sdf_mandelbulbPoint (power : ℝ) (max_iterations : ℕ) (bailout solid_radius : ℝ)
    (p : Vec3) : ℝ :=
  bulbDistance solid_radius (bulbIter power bailout p max_iterations p)

/-- `sdf_julia` (lines 293-342) on one point: `c` is the fixed constant and
the exponent is the hard-coded `power = 8.0` of line 298. -/
def sdf_juliaPoint (constant : Vec3) (max_iterations : ℕ) (bailout solid_radius : ℝ)
    (p : Vec3) : ℝ :=
  bulbDistance solid_radius (bulbIter 8 bailout constant max_iterations p)

/-- Batch `sdf_sphere`. -/
def sdf_sphere (points : List Vec3) (radius : ℝ) : List ℝ :=
  points.map (sdf_spherePoint radius)

/-- Batch `sdf_plane`. -/
def sdf_plane (points : List Vec3) (normal : Vec3) (offset : ℝ) : List ℝ :=
  points.map (sdf_planePoint normal offset)

/-- Batch `sdf_round_box`. -/
def sdf_round_box (points : List Vec3) (half_extent : Vec3) (radius : ℝ) : List ℝ :=
  points.map (sdf_round_boxPoint half_extent radius)

/-- Batch `sdf_sphere_sine`. -/
def sdf_sphere_sine (points : List Vec3) (radius : ℝ)
    (displacement_freq displacement_axis_amp : Vec3) (displacement_amp : ℝ) : List ℝ :=
  points.map (sdf_sphere_sinePoint radius displacement_freq displacement_axis_amp displacement_amp)

/-- `sdf_fbm_noise` (lines 168-184): rounded-box base, then `sd_fbm` at the
offset points.  `octaves` is `int(...)`, so it may be negative (zero rounds). -/
def sdf_fbm_noise (points : List Vec3) (half_extent : Vec3) (corner_radius : ℝ)
    (offset : Vec3) (octaves : ℤ) (frequency gain blend : ℝ) (warp_matrix : Mat3)
    (noise_variant : String) : List ℝ :=
  let base := points.map (fbmNoiseBasePoint half_extent corner_radius)
  sd_fbm (points.map (· + offset)) base octaves.toNat frequency gain blend warp_matrix
    noise_variant.toLower

/-- `sdf_fbm_noise_sphere` (lines 187-204) for a resolved spec: the default
table always supplies `radius`, so the `half_extent` fallback branch of the
source is not reachable from resolved parameters. -/
def sdf_fbm_noise_sphere (points : List Vec3) (radius : ℝ) (offset : Vec3)
    (octaves : ℤ) (frequency gain blend : ℝ) (warp_matrix : Mat3)
    (noise_variant : String) : List ℝ :=
  let base := points.map fun p => norm3 p - radius
  sd_fbm (points.map (· + offset)) base octaves.toNat frequency gain blend warp_matrix
    noise_variant.toLower

/-- Batch `sdf_menger_sponge`. -/
def sdf_menger_sponge (points : List Vec3) (half_size : ℝ) (iterations : ℤ) : List ℝ :=
  points.map (sdf_menger_spongePoint half_size iterations)

/-- Batch `sdf_capped_cylinder`. -/
def sdf_capped_cylinder (points : List Vec3) (radius half_height : ℝ) : List ℝ :=
  points.map (sdf_capped_cylinderPoint radius half_height)

/-- Batch `sdf_mandelbulb` (`max_iterations = int(...)`; a negative count
runs zero iterations). -/
def sdf_mandelbulb (points : List Vec3) (power : ℝ) (max_iterations : ℤ)
    (bailout solid_radius : ℝ) : List ℝ :=
  points.map (sdf_mandelbulbPoint power max_iterations.toNat bailout solid_radius)

/-- Batch `sdf_julia` with already decoded parameters. -/
def sdf_julia (points : List Vec3) (constant : Vec3) (max_iterations : ℤ)
    (bailout solid_radius : ℝ) : List ℝ :=
  points.map (sdf_juliaPoint constant max_iterations.toNat bailout solid_radius)

/-- `np.min(np.stack(child_values, axis=0), axis=0)` and the `max`
variant: elementwise reduce across the stacked child value rows. -/
def stackReduce (f : ℝ → ℝ → ℝ) : List (List ℝ) → List ℝ
  | [] => []
  | v :: vs => vs.foldl (List.zipWith f) v

/-- `sdf_union` (lines 345-349): at least one child, then the per-point
minimum of the evaluated children.  `eval_child` is the callback the tree
evaluator passes in; a raise inside it propagates. -/
def sdf_union {α : Type} (_points : List Vec3) (_params : Params) (children : List α)
    (eval_child : α → Except String (List ℝ)) : Except String (List ℝ) :=
  if children.isEmpty then .error "SDF union requires at least one child."
  else do
    let vals ← children.mapM eval_child
    pure (stackReduce min vals)

/-- `sdf_intersection` (lines 352-356): per-point maximum. -/
def sdf_intersection {α : Type} (_points : List Vec3) (_params : Params) (children : List α)
    (eval_child : α → Except String (List ℝ)) : Except String (List ℝ) :=
  if children.isEmpty then .error "SDF intersection requires at least one child."
  else do
    let vals ← children.mapM eval_child
    pure (stackReduce max vals)

/-- `sdf_difference` (lines 359-364): exactly two children, then
`max(left, -right)` per point. -/
def sdf_difference {α : Type} (_points : List Vec3) (_params : Params) (children : List α)
    (eval_child : α → Except String (List ℝ)) : Except String (List ℝ) :=
  match children with
  | [a, b] => do
      let left ← eval_child a
      let right ← eval_child b
      pure (List.zipWith (fun lv rv => max lv (-rv)) left right)
  | _ => .error "SDF difference expects exactly two children."

mutual

/-- The type-specific payload of a resolved shape-spec node (the kernel
dispatch of `SDF_EVALUATORS` becomes an exhaustive match on this closed
variant set; parameter fields are the keys each kernel reads). -/
inductive Node : Type where
  | sphere (radius : ℝ)
  | plane (normal : Vec3) (offset : ℝ)
  | round_box (half_extent : Vec3) (radius : ℝ)
  | sphere_sine (radius : ℝ) (displacement_freq displacement_axis_amp : Vec3)
      (displacement_amp : ℝ)
  | fbm_noise (half_extent : Vec3) (corner_radius : ℝ) (offset : Vec3) (octaves : ℤ)
      (frequency gain blend : ℝ) (warp_matrix : Mat3) (noise_variant : String)
  | fbm_noise_sphere (radius : ℝ) (offset : Vec3) (octaves : ℤ)
      (frequency gain blend : ℝ) (warp_matrix : Mat3) (noise_variant : String)
  | menger_sponge (half_size : ℝ) (iterations : ℤ)
  | capped_cylinder (radius half_height : ℝ)
  | mandelbulb (power : ℝ) (max_iterations : ℤ) (bailout solid_radius : ℝ)
  | julia (constant : Vec3) (max_iterations : ℤ) (bailout solid_radius : ℝ)
  | union (children : List Shape)
  | inter (children : List Shape)
  | difference (children : List Shape)

/-- A fully resolved shape-spec tree node: the `translate` and `scale`
keys every resolved spec carries, plus the type-specific payload. -/
inductive Shape : Type where
  | mk (translate : Vec3) (scale : ℝ) (node : Node)

end

mutual

/-- `_evaluate_shape_recursive` (lines 477-493): reject `scale ≤ 0`,
transform the incoming points into local space via `(points - translate) /
scale`, dispatch to the kernel on the local points (combinators evaluate
children against the already-transformed points), rescale the result by
`scale`. -/
def evaluate_shape_recursive (pts : List Vec3) : Shape → Except String (List ℝ)
  | .mk translate scale node =>
    if scale ≤ 0 then .error "Scale must be positive."
    else
      (evaluate_node (pts.map fun p => vdiv (p - translate) scale) node).map
        (List.map (· * scale))

/-- The kernel dispatch `SDF_EVALUATORS[shape_type](local_points, data,
children, eval_child)` as an exhaustive match. -/
def evaluate_node (pts : List Vec3) : Node → Except String (List ℝ)
  | .sphere radius => .ok (sdf_sphere pts radius)
  | .plane normal offset => .ok (sdf_plane pts normal offset)
  | .round_box half_extent radius => .ok (sdf_round_box pts half_extent radius)
  | .sphere_sine radius df daa da => .ok (sdf_sphere_sine pts radius df daa da)
  | .fbm_noise he cr off oct fr g b w v => .ok (sdf_fbm_noise pts he cr off oct fr g b w v)
  | .fbm_noise_sphere r off oct fr g b w v =>
      .ok (sdf_fbm_noise_sphere pts r off oct fr g b w v)
  | .menger_sponge half_size iterations => .ok (sdf_menger_sponge pts half_size iterations)
  | .capped_cylinder radius half_height => .ok (sdf_capped_cylinder pts radius half_height)
  | .mandelbulb power mi bailout sr => .ok (sdf_mandelbulb pts power mi bailout sr)
  | .julia constant mi bailout sr => .ok (sdf_julia pts constant mi bailout sr)
  | .union cs =>
      if cs.isEmpty then .error "SDF union requires at least one child."
      else (evaluate_children pts cs).map (stackReduce min)
  | .inter cs =>
      if cs.isEmpty then .error "SDF intersection requires at least one child."
      else (evaluate_children pts cs).map (stackReduce max)
  | .difference cs =>
      match cs with
      | [a, b] => do
          let left ← evaluate_shape_recursive pts a
          let right ← evaluate_shape_recursive pts b
          pure (List.zipWith (fun lv rv => max lv (-rv)) left right)
      | _ => .error "SDF difference expects exactly two children."

/-- `[eval_child(child) for child in children]`: evaluate each child
against the parent-local points, propagating the first raise. -/
def evaluate_children (pts : List Vec3) : List Shape → Except String (List (List ℝ))
  | [] => .ok []
  | c :: cs => do
      let v ← evaluate_shape_recursive pts c
      let vs ← evaluate_children pts cs
      pure (v :: vs)

end

mutual

/-- The per-point denotation of a valid shape tree: what one output entry
of `evaluate_shape_recursive` is in terms of the corresponding input point. -/
def pointShape : Shape → Vec3 → ℝ
  | .mk translate scale node, p => pointNode node (vdiv (p - translate) scale) * scale

/-- Per-point denotation of a node payload. -/
def pointNode : Node → Vec3 → ℝ
  | .sphere radius, p => sdf_spherePoint radius p
  | .plane normal offset, p => sdf_planePoint normal offset p
  | .round_box he r, p => sdf_round_boxPoint he r p
  | .sphere_sine r df daa da, p => sdf_sphere_sinePoint r df daa da p
  | .fbm_noise he cr off oct fr g b w v, p =>
      sd_fbmGoPoint (v.toLower.toLower == "simplex") fr g b w oct.toNat
        (fbmNoiseBasePoint he cr p) 1 1 (p + off)
  | .fbm_noise_sphere r off oct fr g b w v, p =>
      sd_fbmGoPoint (v.toLower.toLower == "simplex") fr g b w oct.toNat
        (norm3 p - r) 1 1 (p + off)
  | .menger_sponge hs it, p => sdf_menger_spongePoint hs it p
  | .capped_cylinder r hh, p => sdf_capped_cylinderPoint r hh p
  | .mandelbulb power mi bailout sr, p => sdf_mandelbulbPoint power mi.toNat bailout sr p
  | .julia c mi bailout sr, p => sdf_juliaPoint c mi.toNat bailout sr p
  | .union cs, p => pointMin (pointChildren cs p)
  | .inter cs, p => pointMax (pointChildren cs p)
  | .difference cs, p =>
      match cs with
      | [a, b] => max (pointShape a p) (-(pointShape b p))
      | _ => 0

/-- Per-point denotations of a child list. -/
def pointChildren : List Shape → Vec3 → List ℝ
  | [], _ => []
  | c :: cs, p => pointShape c p :: pointChildren cs p

end

mutual

/-- Validity of a resolved shape tree: positive scale everywhere and the
combinator arity constraints (union/intersection need at least one child,
difference exactly two). -/
def WfShape : Shape → Prop
  | .mk _ scale node => 0 < scale ∧ WfNode node

/-- Validity of a node payload. -/
def WfNode : Node → Prop
  | .union cs => cs ≠ [] ∧ WfChildren cs
  | .inter cs => cs ≠ [] ∧ WfChildren cs
  | .difference cs => cs.length = 2 ∧ WfChildren cs
  | _ => True

/-- Validity of every child. -/
def WfChildren : List Shape → Prop
  | [] => True
  | c :: cs => WfShape c ∧ WfChildren cs

end

/-- `np.linspace(a, b, n)`: `n` evenly spaced samples from `a` to `b`
inclusive (step `(b-a)/(n-1)`; a single sample is `a`). -/
def linspace (a b : ℝ) (n : ℕ) : List ℝ :=
  (List.range n).map fun i : ℕ =>
    if n ≤ 1 then a else a + (i : ℝ) * ((b - a) / ((n : ℝ) - 1))

/-- `np.stack(np.meshgrid(xs, ys, zs, indexing="ij"), axis=-1).reshape(-1, 3)`:
the flattened grid batch, `x` outermost and `z` innermost. -/
def meshgridFlat (xs ys zs : List ℝ) : List Vec3 :=
  xs.flatMap fun x => ys.flatMap fun y => zs.map fun z => ⟨x, y, z⟩

/-- Split a list into consecutive chunks of size `n` (the last chunk may
be shorter); `zs[z0 : z0 + chunk]` for `z0 in range(0, len(zs), chunk)`,
and also the row grouping of `reshape`. -/
def chunksOf {α : Type} (n : ℕ) (l : List α) : List (List α) :=
  if h : l.isEmpty ∨ n = 0 then []
  else l.take n :: chunksOf n (l.drop n)
termination_by l.length
decreasing_by
  push_neg at h
  have hl : 0 < l.length := by
    cases l with
    | nil => simp at h
    | cons a t => simp
  simp only [List.length_drop]
  omega

/-- A scalar field slab or full field, indexed `[x][y][z]`. -/
abbrev Field3 := List (List (List ℝ))

/-- `distances.reshape(nx, ny, nz)` of a row-major flat batch result:
innermost rows of length `nz`, grouped into planes of `ny` rows. -/
def reshape3 (ny nz : ℕ) (l : List ℝ) : Field3 :=
  chunksOf ny (chunksOf nz l)

/-- Writing a slab into `field[:, :, z0 : z0 + len]`: concatenation of the
z-rows of two fields with identical x/y extent. -/
def appendZ (f g : Field3) : Field3 :=
  List.zipWith (fun pf pg => List.zipWith (· ++ ·) pf pg) f g

/-- The freshly allocated field restricted to zero written z-slices. -/
def emptyFieldOf (xs ys : List ℝ) : Field3 :=
  xs.map fun _ => ys.map fun _ => []

/-- The field whose `[i][j][k]` entry is `f` at `(xs_i, ys_j, zs_k)`: the
common pointwise value of the chunked and the single-pass evaluation. -/
def gridFieldOf (f : Vec3 → ℝ) (xs ys zs : List ℝ) : Field3 :=
  xs.map fun x => ys.map fun y => zs.map fun z => f ⟨x, y, z⟩

/-- `evaluate_field_chunked` (batch_sdf_jobs.py, lines 72-99): build the
three axes, then for each z-slab build its full flattened sub-grid,
evaluate the shape once on it, reshape into `(res, res, len(slab))` and
write it at the slab's z-offset.  The memmap backing store and the float32
cast are storage concerns outside the idealised model. -/
def evaluate_field_chunked (resolution : ℕ) (bounds : (ℝ × ℝ) × (ℝ × ℝ) × (ℝ × ℝ))
    (spec : Shape) (chunk : ℕ) : Except String Field3 :=
  let xs := linspace bounds.1.1 bounds.1.2 resolution
  let ys := linspace bounds.2.1.1 bounds.2.1.2 resolution
  let zs := linspace bounds.2.2.1 bounds.2.2.2 resolution
  do
    let parts ← (chunksOf chunk zs).mapM fun zc =>
      (evaluate_shape_recursive (meshgridFlat xs ys zc) spec).map
        (reshape3 resolution zc.length)
    pure (parts.foldl appendZ (emptyFieldOf xs ys))

/-- The single-pass reference: evaluate the entire grid batch in one call
to the evaluator and reshape. -/
def evaluate_field_single (resolution : ℕ) (bounds : (ℝ × ℝ) × (ℝ × ℝ) × (ℝ × ℝ))
    (spec : Shape) : Except String Field3 :=
  let xs := linspace bounds.1.1 bounds.1.2 resolution
  let ys := linspace bounds.2.1.1 bounds.2.1.2 resolution
  let zs := linspace bounds.2.2.1 bounds.2.2.2 resolution
  (evaluate_shape_recursive (meshgridFlat xs ys zs) spec).map
    (reshape3 resolution zs.length)

/-- `float(value)` of a stored parameter. -/
def decodeFloat : Value → Option ℝ
  | .num q => some (q : ℝ)
  | _ => none

/-- `int(value)` of a stored parameter (truncation toward zero). -/
def decodeInt : Value → Option ℤ
  | .num q => some (pyInt q)
  | _ => none

/-- `np.asarray(value, dtype=np.float64)` of a 3-vector parameter. -/
def decodeVec3 : Value → Option Vec3
  | .arr [.num a, .num b, .num c] => some ⟨(a : ℝ), (b : ℝ), (c : ℝ)⟩
  | _ => none

/-- `sdf_julia` exactly as it reads its parameter dictionary (lines
294-298): it looks up only `constant`, `max_iterations`, `bailout` and
`solid_radius`, and iterates with the hard-coded `power = 8.0`; a missing
key is a `KeyError`, modelled as `none`. -/
def sdf_julia_fromParams (points : List Vec3) (params : Params) : Option (List ℝ) := do
  let constant ← (params.lookup "constant").bind decodeVec3
  let max_iterations ← (params.lookup "max_iterations").bind decodeInt
  let bailout ← (params.lookup "bailout").bind decodeFloat
  let solid_radius ← (params.lookup "solid_radius").bind decodeFloat
  pure (sdf_julia points constant max_iterations bailout solid_radius)

end


/-! ### Unfolding and batch-structure helper lemmas -/

theorem vec3_add_def (a b : Vec3) : a + b = ⟨a.x + b.x, a.y + b.y, a.z + b.z⟩ := rfl

theorem vec3_sub_def (a b : Vec3) : a - b = ⟨a.x - b.x, a.y - b.y, a.z - b.z⟩ := rfl

theorem zipWith_map_same {α β γ : Type} (f : β → β → γ) (g h : α → β) (l : List α) :
    List.zipWith f (l.map g) (l.map h) = l.map fun a => f (g a) (h a) := by
  rw [List.zipWith_map, List.zipWith_same]

/-- Looking up any key other than `k` is unchanged by `d[k] = v`. -/
theorem lookup_dset_ne (d : Params) (k k2 : String) (v : Value) (h : k2 ≠ k) :
    (dset d k v).lookup k2 = d.lookup k2 := by
  have hbeq : (k2 == k) = false := beq_eq_false_iff_ne.mpr h
  induction d with
  | nil => simp [dset, List.lookup, hbeq]
  | cons kv t ih =>
    obtain ⟨k1, v1⟩ := kv
    by_cases hk : k1 = k
    · subst hk
      simp [dset, List.lookup, hbeq]
    · simp only [dset, if_neg hk]
      cases hb2 : (k2 == k1) with
      | true => simp [List.lookup, hb2]
      | false => simp [List.lookup, hb2, ih]

/-! ### Claim theorems: C7, C9, C4, C1, C10 -/

/-- C7: the fBm kernel with `octaves = 0` returns exactly the input
`base_distance` values unchanged, for every point batch, base distance
array, and all frequency/gain/blend/warp-matrix/variant parameters. -/
theorem claim7_fbm_zero_octaves (points : List Vec3) (base_distance : List ℝ)
    (frequency gain blend : ℝ) (warp_matrix : Mat3) (variant : String) :
    sd_fbm points base_distance 0 frequency gain blend warp_matrix variant =
      base_distance := rfl

/-- C9: for every spec node with `scale ≤ 0`, tree evaluation fails with
the invalid-scale error before the node kernel is invoked; the scale is
never silently clamped to a positive value. -/
theorem claim9_invalid_scale (pts : List Vec3) (t : Vec3) (s : ℝ) (n : Node)
    (hs : s ≤ 0) :
    evaluate_shape_recursive pts (.mk t s n) = .error "Scale must be positive." := by
  simp [evaluate_shape_recursive, hs]

theorem claim9_witness :
    ((-1 : ℝ) ≤ 0) ∧
      evaluate_shape_recursive [] (.mk ⟨0, 0, 0⟩ (-1) (.sphere 1)) =
        .error "Scale must be positive." :=
  ⟨by norm_num, claim9_invalid_scale [] ⟨0, 0, 0⟩ (-1) (.sphere 1) (by norm_num)⟩

/-- C4 (counterexample): the Menger kernel at `iterations = 0` does not
return the plain box distance: at the origin with `half_size = 1` the
kernel yields `1/3` (one clamped folding step) while the plain box
distance is `-1`. -/
theorem claim4_counterexample :
    sdf_menger_sponge [⟨0, 0, 0⟩] 1 0 = [1 / 3] ∧
      mengerBoxOnly 1 ⟨0, 0, 0⟩ = -1 ∧ ([1 / 3] : List ℝ) ≠ [-1] := by
  refine ⟨?_, ?_, by norm_num⟩
  · have hmax : (max (0 : ℤ) 1).toNat = 1 := by decide
    simp only [sdf_menger_sponge, sdf_menger_spongePoint, List.map, hmax, mengerGo,
      vdiv, vabs, vconst, vmax, maxComp, norm3, vmod, fmod, smul3, vec3_sub_def]
    norm_num [max_def, min_def, Real.sqrt_eq_zero]
  · simp only [mengerBoxOnly, vdiv, vabs, vconst, vmax, maxComp, norm3, vec3_sub_def]
    norm_num [max_def, min_def, Real.sqrt_eq_zero]

/-- C4 (amended): the Menger kernel clamps `iterations` to at least one,
so `iterations = 0` behaves exactly as `iterations = 1` (box distance
combined with one folding step), not as the plain box distance. -/
theorem claim4_iterations_clamped (points : List Vec3) (half_size : ℝ) :
    sdf_menger_sponge points half_size 0 = sdf_menger_sponge points half_size 1 := by
  have h : (max (0 : ℤ) 1).toNat = (max (1 : ℤ) 1).toNat := by decide
  simp [sdf_menger_sponge, sdf_menger_spongePoint, h]

/-- C1: with positive scale the tree evaluator computes the node kernel on
the locally transformed points `(points - translate) / scale` and returns
the kernel output multiplied by `scale`; consequently the sphere of radius
1 with `translate = [1,0,0]`, `scale = 2` evaluates to exactly 0 at world
point `(3,0,0)`. -/
theorem claim1_local_transform :
    (∀ (pts : List Vec3) (t : Vec3) (s : ℝ) (n : Node), 0 < s →
        evaluate_shape_recursive pts (.mk t s n) =
          (evaluate_node (pts.map fun p => vdiv (p - t) s) n).map (List.map (· * s))) ∧
      evaluate_shape_recursive [⟨3, 0, 0⟩] (.mk ⟨1, 0, 0⟩ 2 (.sphere 1)) = .ok [0] := by
  constructor
  · intro pts t s n hs
    simp [evaluate_shape_recursive, not_le.mpr hs]
  · simp only [evaluate_shape_recursive, evaluate_node, sdf_sphere, sdf_spherePoint,
      List.map, vdiv, vec3_sub_def, norm3]
    norm_num [Except.map, Real.sqrt_one]

theorem claim1_witness :
    (0 : ℝ) < 2 ∧
      evaluate_shape_recursive [⟨3, 0, 0⟩] (.mk ⟨1, 0, 0⟩ 2 (.sphere 1)) =
        (evaluate_node ([⟨3, 0, 0⟩].map fun p => vdiv (p - ⟨1, 0, 0⟩) 2) (.sphere 1)).map
          (List.map (· * 2)) :=
  ⟨by norm_num,
    claim1_local_transform.1 [⟨3, 0, 0⟩] ⟨1, 0, 0⟩ 2 (.sphere 1) (by norm_num)⟩

/-- C10: the Julia kernel iterates with the hard-coded exponent `power =
8` and never reads a `power` parameter: overwriting or adding a `power`
entry in its parameter dictionary leaves its output unchanged on every
point batch. -/
theorem claim10_julia_ignores_power (points : List Vec3) (params : Params) (v : Value) :
    sdf_julia_fromParams points (dset params "power" v) =
      sdf_julia_fromParams points params := by
  simp only [sdf_julia_fromParams]
  rw [lookup_dset_ne params "power" "constant" v (by decide),
    lookup_dset_ne params "power" "max_iterations" v (by decide),
    lookup_dset_ne params "power" "bailout" v (by decide),
    lookup_dset_ne params "power" "solid_radius" v (by decide)]


/-! ### Combinator kernel lemmas (C2, C8) -/

/-- `mapM` of a pointwise-successful evaluator is the successful list. -/
theorem mapM_ok {α β : Type} (F : α → Except String β) (g : α → β) :
    ∀ (l : List α), (∀ x ∈ l, F x = .ok (g x)) → l.mapM F = .ok (l.map g) := by
  intro l
  induction l with
  | nil => intro _; rfl
  | cons a t ih =>
    intro h
    rw [List.mapM_cons, h a (by simp), ih fun x hx => h x (by simp [hx])]
    rfl

theorem getD_zipWith (f : ℝ → ℝ → ℝ) (v w : List ℝ) (m i : ℕ) (hv : v.length = m)
    (hw : w.length = m) (hi : i < m) :
    (List.zipWith f v w).getD i 0 = f (v.getD i 0) (w.getD i 0) := by
  have h1 : i < (List.zipWith f v w).length := by
    simp [List.length_zipWith, hv, hw, hi]
  rw [List.getD_eq_getElem _ _ h1, List.getD_eq_getElem _ _ (by omega : i < v.length),
    List.getD_eq_getElem _ _ (by omega : i < w.length), List.getElem_zipWith]

theorem foldl_zipWith_getD (f : ℝ → ℝ → ℝ) (m i : ℕ) (hi : i < m) :
    ∀ (vs : List (List ℝ)) (v : List ℝ), v.length = m → (∀ w ∈ vs, w.length = m) →
      (vs.foldl (List.zipWith f) v).length = m ∧
        (vs.foldl (List.zipWith f) v).getD i 0 =
          vs.foldl (fun a w => f a (w.getD i 0)) (v.getD i 0) := by
  intro vs
  induction vs with
  | nil => intro v hv _; exact ⟨hv, rfl⟩
  | cons w ws ih =>
    intro v hv hws
    have hw : w.length = m := hws w (by simp)
    have hzip : (List.zipWith f v w).length = m := by
      simp [List.length_zipWith, hv, hw]
    obtain ⟨hl, hd⟩ := ih (List.zipWith f v w) hzip fun u hu => hws u (by simp [hu])
    refine ⟨hl, ?_⟩
    simp only [List.foldl_cons]
    rw [hd, getD_zipWith f v w m i hv hw hi]

/-- Per-point reading of the stacked reduce: entry `i` of
`stackReduce f` over a nonempty family is the `f`-reduce of the entries
`i` of the family members. -/
theorem stackReduce_getD (f : ℝ → ℝ → ℝ) {α : Type} (g : α → List ℝ) (c : α)
    (cs : List α) (m : ℕ) (hlen : ∀ d ∈ c :: cs, (g d).length = m) (i : ℕ)
    (hi : i < m) :
    (stackReduce f ((c :: cs).map g)).getD i 0 =
      (cs.map fun d => (g d).getD i 0).foldl f ((g c).getD i 0) := by
  simp only [List.map_cons, stackReduce]
  have hmem : ∀ w ∈ cs.map g, w.length = m := by
    intro w hw
    obtain ⟨d, hd, rfl⟩ := List.mem_map.mp hw
    exact hlen d (by simp [hd])
  rw [(foldl_zipWith_getD f m i hi (cs.map g) (g c) (hlen c (by simp)) hmem).2]
  rw [List.foldl_map, List.foldl_map]

theorem sdf_union_ok {α : Type} (pts : List Vec3) (prm : Params) (c : α) (cs : List α)
    (g : α → List ℝ) :
    sdf_union pts prm (c :: cs) (fun d => Except.ok (g d)) =
      Except.ok (stackReduce min ((c :: cs).map g)) := by
  simp only [sdf_union, List.isEmpty_cons, Bool.false_eq_true, if_false]
  rw [show ((c :: cs).mapM fun d => Except.ok (g d) :
      Except String (List (List ℝ))) = Except.ok ((c :: cs).map g) from
    mapM_ok _ g (c :: cs) fun x _ => rfl]
  rfl

theorem sdf_intersection_ok {α : Type} (pts : List Vec3) (prm : Params) (c : α)
    (cs : List α) (g : α → List ℝ) :
    sdf_intersection pts prm (c :: cs) (fun d => Except.ok (g d)) =
      Except.ok (stackReduce max ((c :: cs).map g)) := by
  simp only [sdf_intersection, List.isEmpty_cons, Bool.false_eq_true, if_false]
  rw [show ((c :: cs).mapM fun d => Except.ok (g d) :
      Except String (List (List ℝ))) = Except.ok ((c :: cs).map g) from
    mapM_ok _ g (c :: cs) fun x _ => rfl]
  rfl

theorem sdf_difference_ok {α : Type} (pts : List Vec3) (prm : Params) (a b : α)
    (g : α → List ℝ) :
    sdf_difference pts prm [a, b] (fun d => Except.ok (g d)) =
      Except.ok (List.zipWith (fun lv rv => max lv (-rv)) (g a) (g b)) := rfl


/-- C2: the union combinator returns the per-point minimum of its
children evaluated distances, intersection the per-point maximum, and
difference `max(left, -right)` of its two children, for every point batch
and all child values. -/
theorem claim2_csg_combinators :
    (∀ {α : Type} (pts : List Vec3) (prm : Params) (g : α → List ℝ) (c : α)
        (cs : List α),
        sdf_union pts prm (c :: cs) (fun d => Except.ok (g d)) =
          Except.ok (stackReduce min ((c :: cs).map g)) ∧
        ∀ (m : ℕ), (∀ d ∈ c :: cs, (g d).length = m) → ∀ i, i < m →
          (stackReduce min ((c :: cs).map g)).getD i 0 =
            pointMin ((c :: cs).map fun d => (g d).getD i 0)) ∧
    (∀ {α : Type} (pts : List Vec3) (prm : Params) (g : α → List ℝ) (c : α)
        (cs : List α),
        sdf_intersection pts prm (c :: cs) (fun d => Except.ok (g d)) =
          Except.ok (stackReduce max ((c :: cs).map g)) ∧
        ∀ (m : ℕ), (∀ d ∈ c :: cs, (g d).length = m) → ∀ i, i < m →
          (stackReduce max ((c :: cs).map g)).getD i 0 =
            pointMax ((c :: cs).map fun d => (g d).getD i 0)) ∧
    (∀ {α : Type} (pts : List Vec3) (prm : Params) (g : α → List ℝ) (a b : α),
        sdf_difference pts prm [a, b] (fun d => Except.ok (g d)) =
          Except.ok (List.zipWith (fun lv rv => max lv (-rv)) (g a) (g b))) := by
  refine ⟨?_, ?_, ?_⟩
  · intro α pts prm g c cs
    refine ⟨sdf_union_ok pts prm c cs g, ?_⟩
    intro m hlen i hi
    rw [stackReduce_getD min g c cs m hlen i hi]
    simp only [List.map_cons, pointMin]
  · intro α pts prm g c cs
    refine ⟨sdf_intersection_ok pts prm c cs g, ?_⟩
    intro m hlen i hi
    rw [stackReduce_getD max g c cs m hlen i hi]
    simp only [List.map_cons, pointMax]
  · intro α pts prm g a b
    exact sdf_difference_ok pts prm a b g

theorem claim2_witness :
    (∀ d ∈ ([1, 2] : List ℕ), ((fun d : ℕ => [(d : ℝ)]) d).length = 1) ∧
      (0 : ℕ) < 1 ∧
      (stackReduce min (([1, 2] : List ℕ).map fun d : ℕ => [(d : ℝ)])).getD 0 0 =
        pointMin (([1, 2] : List ℕ).map fun d : ℕ => ([(d : ℝ)]).getD 0 0) :=
  ⟨by simp, by decide,
    (claim2_csg_combinators.1 [] [] (fun d : ℕ => [(d : ℝ)]) 1 [2]).2 1
      (by simp) 0 (by decide)⟩

/-- C8: union and intersection fail with the arity error on an empty
children list, difference fails whenever its child count is not exactly
two, and with valid arity (and children that evaluate cleanly) none of
the three raises. -/
theorem claim8_combinator_arity :
    (∀ {α : Type} (pts : List Vec3) (prm : Params)
        (ec : α → Except String (List ℝ)),
        sdf_union pts prm ([] : List α) ec =
          .error "SDF union requires at least one child.") ∧
    (∀ {α : Type} (pts : List Vec3) (prm : Params)
        (ec : α → Except String (List ℝ)),
        sdf_intersection pts prm ([] : List α) ec =
          .error "SDF intersection requires at least one child.") ∧
    (∀ {α : Type} (pts : List Vec3) (prm : Params) (children : List α)
        (ec : α → Except String (List ℝ)), children.length ≠ 2 →
        sdf_difference pts prm children ec =
          .error "SDF difference expects exactly two children.") ∧
    (∀ {α : Type} (pts : List Vec3) (prm : Params) (c : α) (cs : List α)
        (g : α → List ℝ),
        ∃ v, sdf_union pts prm (c :: cs) (fun d => Except.ok (g d)) = Except.ok v) ∧
    (∀ {α : Type} (pts : List Vec3) (prm : Params) (c : α) (cs : List α)
        (g : α → List ℝ),
        ∃ v, sdf_intersection pts prm (c :: cs) (fun d => Except.ok (g d)) =
          Except.ok v) ∧
    (∀ {α : Type} (pts : List Vec3) (prm : Params) (a b : α) (g : α → List ℝ),
        ∃ v, sdf_difference pts prm [a, b] (fun d => Except.ok (g d)) =
          Except.ok v) := by
  refine ⟨fun pts prm ec => rfl, fun pts prm ec => rfl, ?_, ?_, ?_, ?_⟩
  · intro α pts prm children ec h
    match children with
    | [] => rfl
    | [a] => rfl
    | [a, b] => exact absurd rfl h
    | a :: b :: c :: t => rfl
  · intro α pts prm c cs g
    exact ⟨_, sdf_union_ok pts prm c cs g⟩
  · intro α pts prm c cs g
    exact ⟨_, sdf_intersection_ok pts prm c cs g⟩
  · intro α pts prm a b g
    exact ⟨_, sdf_difference_ok pts prm a b g⟩

theorem claim8_witness :
    (([1, 2, 3] : List ℕ).length ≠ 2) ∧
      sdf_difference (α := ℕ) [] [] [1, 2, 3] (fun _ => Except.ok []) =
        .error "SDF difference expects exactly two children." :=
  ⟨by decide,
    claim8_combinator_arity.2.2.1 [] [] [1, 2, 3] (fun _ => Except.ok [])
      (by decide)⟩


/-! ### Fractal kernel guard (C5) -/

theorem norm3_origin : norm3 ⟨0, 0, 0⟩ = 0 := by
  norm_num [norm3, Real.sqrt_zero]

/-- An inactive lane (`r ≤ eps` or `r > bailout`) keeps its state. -/
theorem bulbStep_inactive (power bailout : ℝ) (c : Vec3) (st : Vec3 × ℝ × ℝ)
    (h : ¬(bulbEps < st.2.2 ∧ st.2.2 ≤ bailout)) :
    bulbStep power bailout c st = st := by
  simp only [bulbStep]
  rw [if_neg h]

/-- The origin lane never activates: its whole iteration state is fixed. -/
theorem bulbIter_origin (power bailout : ℝ) (c : Vec3) (n : ℕ) :
    bulbIter power bailout c n ⟨0, 0, 0⟩ = (⟨0, 0, 0⟩, 1, norm3 ⟨0, 0, 0⟩) := by
  have hfix : bulbStep power bailout c (⟨0, 0, 0⟩, 1, norm3 ⟨0, 0, 0⟩) =
      (⟨0, 0, 0⟩, 1, norm3 ⟨0, 0, 0⟩) := by
    refine bulbStep_inactive power bailout c _ ?_
    rintro ⟨h1, -⟩
    rw [norm3_origin] at h1
    norm_num [bulbEps] at h1
  exact Function.iterate_fixed hfix n

/-- C5 (counterexample): with `solid_radius = 1` the origin has final
radius `0 ≤ eps` yet is assigned distance `-1`, not `0`: the
`solid_radius` override rewrites lanes the `eps` guard zeroed. -/
theorem claim5_counterexample :
    sdf_juliaPoint ⟨0.355, 0.355, 0.355⟩ 2 6 1 ⟨0, 0, 0⟩ = -1 ∧
      (-1 : ℝ) ≠ 0 := by
  refine ⟨?_, by norm_num⟩
  rw [sdf_juliaPoint, bulbIter_origin]
  rw [bulbDistance]
  norm_num [norm3_origin, bulbEps]

/-- C5 (amended): the escape-time formula never divides by or takes the
logarithm of a radius `r ≤ eps` — any point whose final iterated radius is
`≤ eps` gets distance exactly `0` unless the `solid_radius` interior
override applies (`solid_radius > r`), in which case it gets
`-(solid_radius - r)`; in particular with `solid_radius = 0` the origin
receives the distance `0` for any power, bailout and iteration count, in
both the Mandelbulb and the Julia kernel. -/
theorem claim5_eps_guard :
    (∀ (power bailout solid_radius : ℝ) (n : ℕ) (p : Vec3),
        (bulbIter power bailout p n p).2.2 ≤ bulbEps →
        solid_radius ≤ (bulbIter power bailout p n p).2.2 →
        sdf_mandelbulbPoint power n bailout solid_radius p = 0) ∧
    (∀ (constant : Vec3) (bailout solid_radius : ℝ) (n : ℕ) (p : Vec3),
        (bulbIter 8 bailout constant n p).2.2 ≤ bulbEps →
        solid_radius ≤ (bulbIter 8 bailout constant n p).2.2 →
        sdf_juliaPoint constant n bailout solid_radius p = 0) ∧
    (∀ (power bailout : ℝ) (n : ℕ),
        sdf_mandelbulbPoint power n bailout 0 ⟨0, 0, 0⟩ = 0) ∧
    (∀ (constant : Vec3) (bailout : ℝ) (n : ℕ),
        sdf_juliaPoint constant n bailout 0 ⟨0, 0, 0⟩ = 0) := by
  have hdist : ∀ (solid_radius : ℝ) (st : Vec3 × ℝ × ℝ), st.2.2 ≤ bulbEps →
      solid_radius ≤ st.2.2 → bulbDistance solid_radius st = 0 := by
    intro solid_radius st h1 h2
    rw [bulbDistance]
    rw [if_neg (by rintro ⟨-, hr⟩; exact absurd (lt_of_le_of_lt h2 hr) (lt_irrefl _)),
      if_neg (not_lt.mpr h1)]
  have horigin : ∀ (power bailout : ℝ) (c : Vec3) (n : ℕ),
      bulbDistance 0 (bulbIter power bailout c n ⟨0, 0, 0⟩) = 0 := by
    intro power bailout c n
    rw [bulbIter_origin]
    refine hdist 0 _ ?_ ?_ <;> norm_num [norm3_origin, bulbEps]
  exact ⟨fun power bailout sr n p h1 h2 => hdist sr _ h1 h2,
    fun c bailout sr n p h1 h2 => hdist sr _ h1 h2,
    fun power bailout n => horigin power bailout _ n,
    fun c bailout n => horigin 8 bailout c n⟩

theorem claim5_witness :
    ((bulbIter 2 8 ⟨0, 0, 0⟩ 0 ⟨0, 0, 0⟩).2.2 ≤ bulbEps) ∧
      ((0 : ℝ) ≤ (bulbIter 2 8 ⟨0, 0, 0⟩ 0 ⟨0, 0, 0⟩).2.2) ∧
      sdf_mandelbulbPoint 2 0 8 0 ⟨0, 0, 0⟩ = 0 :=
  ⟨by rw [bulbIter_origin]; norm_num [norm3_origin, bulbEps],
    by rw [bulbIter_origin]; norm_num [norm3_origin],
    claim5_eps_guard.1 2 8 0 0 ⟨0, 0, 0⟩
      (by rw [bulbIter_origin]; norm_num [norm3_origin, bulbEps])
      (by rw [bulbIter_origin]; norm_num [norm3_origin])⟩


/-! ### Pointwise semantics of the tree evaluator (towards C3) -/

theorem pointChildren_eq_map (cs : List Shape) (p : Vec3) :
    pointChildren cs p = cs.map fun c => pointShape c p := by
  induction cs with
  | nil => simp [pointChildren]
  | cons c t ih => simp [pointChildren, ih]

theorem foldl_zipWith_maps {α : Type} (f : ℝ → ℝ → ℝ) (pts : List Vec3) :
    ∀ (cs : List α) (g : α → Vec3 → ℝ) (h0 : Vec3 → ℝ),
      (cs.map fun c => pts.map (g c)).foldl (List.zipWith f) (pts.map h0) =
        pts.map fun p => cs.foldl (fun a c => f a (g c p)) (h0 p) := by
  intro cs
  induction cs with
  | nil => intro g h0; simp
  | cons c t ih =>
    intro g h0
    simp only [List.map_cons, List.foldl_cons]
    rw [zipWith_map_same]
    exact ih g fun p => f (h0 p) (g c p)

theorem stackReduce_pointwise (f : ℝ → ℝ → ℝ) (pts : List Vec3) (c : Shape)
    (cs : List Shape) :
    stackReduce f ((c :: cs).map fun d => pts.map (pointShape d)) =
      pts.map fun p => (cs.map fun d => pointShape d p).foldl f (pointShape c p) := by
  simp only [List.map_cons, stackReduce]
  rw [foldl_zipWith_maps f pts cs pointShape (pointShape c)]
  refine List.map_congr_left fun p _ => ?_
  rw [List.foldl_map]

theorem sd_fbmGo_pointwise (us : Bool) (fr ga bl : ℝ) (W : Mat3) :
    ∀ (n : ℕ) (pts : List Vec3) (rv : Vec3 → ℝ) (amp freq : ℝ) (wv : Vec3 → Vec3),
      sd_fbmGo us fr ga bl W n (pts.map rv) amp freq (pts.map wv) =
        pts.map fun p => sd_fbmGoPoint us fr ga bl W n (rv p) amp freq (wv p) := by
  intro n
  induction n with
  | zero => intro pts rv amp freq wv; rfl
  | succ k ih =>
    intro pts rv amp freq wv
    simp only [sd_fbmGo, sd_fbmGoPoint, List.map_map]
    rw [zipWith_map_same]
    exact ih pts _ (amp * ga) (freq * fr) _

theorem sdf_fbm_noise_pointwise (pts : List Vec3) (he : Vec3) (cr : ℝ) (off : Vec3)
    (oct : ℤ) (fr ga bl : ℝ) (W : Mat3) (v : String) :
    sdf_fbm_noise pts he cr off oct fr ga bl W v =
      pts.map fun p =>
        sd_fbmGoPoint (v.toLower.toLower == "simplex") fr ga bl W oct.toNat
          (fbmNoiseBasePoint he cr p) 1 1 (p + off) := by
  simp only [sdf_fbm_noise, sd_fbm]
  exact sd_fbmGo_pointwise _ _ _ _ _ oct.toNat pts _ 1 1 _

theorem sdf_fbm_noise_sphere_pointwise (pts : List Vec3) (r : ℝ) (off : Vec3)
    (oct : ℤ) (fr ga bl : ℝ) (W : Mat3) (v : String) :
    sdf_fbm_noise_sphere pts r off oct fr ga bl W v =
      pts.map fun p =>
        sd_fbmGoPoint (v.toLower.toLower == "simplex") fr ga bl W oct.toNat
          (norm3 p - r) 1 1 (p + off) := by
  simp only [sdf_fbm_noise_sphere, sd_fbm]
  exact sd_fbmGo_pointwise _ _ _ _ _ oct.toNat pts _ 1 1 _


mutual

/-- On a valid tree, the evaluator succeeds and is the pointwise map of
`pointShape`: each output entry depends only on its own input point. -/
theorem evaluate_shape_pointwise (pts : List Vec3) (sh : Shape) (h : WfShape sh) :
    evaluate_shape_recursive pts sh = .ok (pts.map (pointShape sh)) := by
  match sh with
  | .mk t s n =>
    have h2 : 0 < s ∧ WfNode n := h
    rw [evaluate_shape_recursive, if_neg (not_le.mpr h2.1),
      evaluate_node_pointwise (pts.map fun p => vdiv (p - t) s) n h2.2]
    simp [Except.map, List.map_map, Function.comp, pointShape]

theorem evaluate_node_pointwise (pts : List Vec3) (n : Node) (h : WfNode n) :
    evaluate_node pts n = .ok (pts.map (pointNode n)) := by
  match n with
  | .sphere r =>
    have he : pointNode (.sphere r) = sdf_spherePoint r := by
      funext p; simp [pointNode]
    simp [evaluate_node, sdf_sphere, he]
  | .plane nm o =>
    have he : pointNode (.plane nm o) = sdf_planePoint nm o := by
      funext p; simp [pointNode]
    simp [evaluate_node, sdf_plane, he]
  | .round_box he r =>
    have heq : pointNode (.round_box he r) = sdf_round_boxPoint he r := by
      funext p; simp [pointNode]
    simp [evaluate_node, sdf_round_box, heq]
  | .sphere_sine r df daa da =>
    have he : pointNode (.sphere_sine r df daa da) = sdf_sphere_sinePoint r df daa da := by
      funext p; simp [pointNode]
    simp [evaluate_node, sdf_sphere_sine, he]
  | .fbm_noise he cr off oct fr ga bl W v =>
    have heq : pointNode (.fbm_noise he cr off oct fr ga bl W v) = fun p =>
        sd_fbmGoPoint (v.toLower.toLower == "simplex") fr ga bl W oct.toNat
          (fbmNoiseBasePoint he cr p) 1 1 (p + off) := by
      funext p; simp [pointNode]
    rw [evaluate_node, sdf_fbm_noise_pointwise, heq]
  | .fbm_noise_sphere r off oct fr ga bl W v =>
    have heq : pointNode (.fbm_noise_sphere r off oct fr ga bl W v) = fun p =>
        sd_fbmGoPoint (v.toLower.toLower == "simplex") fr ga bl W oct.toNat
          (norm3 p - r) 1 1 (p + off) := by
      funext p; simp [pointNode]
    rw [evaluate_node, sdf_fbm_noise_sphere_pointwise, heq]
  | .menger_sponge hs it =>
    have he : pointNode (.menger_sponge hs it) = sdf_menger_spongePoint hs it := by
      funext p; simp [pointNode]
    simp [evaluate_node, sdf_menger_sponge, he]
  | .capped_cylinder r hh =>
    have he : pointNode (.capped_cylinder r hh) = sdf_capped_cylinderPoint r hh := by
      funext p; simp [pointNode]
    simp [evaluate_node, sdf_capped_cylinder, he]
  | .mandelbulb pw mi bo sr =>
    have he : pointNode (.mandelbulb pw mi bo sr) =
        sdf_mandelbulbPoint pw mi.toNat bo sr := by
      funext p; simp [pointNode]
    simp [evaluate_node, sdf_mandelbulb, he]
  | .julia c mi bo sr =>
    have he : pointNode (.julia c mi bo sr) = sdf_juliaPoint c mi.toNat bo sr := by
      funext p; simp [pointNode]
    simp [evaluate_node, sdf_julia, he]
  | .union cs =>
    have h2 : cs ≠ [] ∧ WfChildren cs := h
    match cs, h2 with
    | c :: cs2, h2 =>
      rw [evaluate_node, if_neg (by simp),
        evaluate_children_pointwise pts (c :: cs2) h2.2]
      have heq : pointNode (.union (c :: cs2)) = fun p =>
          pointMin (pointChildren (c :: cs2) p) := by
        funext p; simp [pointNode]
      simp only [Except.map, heq]
      rw [stackReduce_pointwise]
      refine congrArg Except.ok (List.map_congr_left fun p _ => ?_)
      rw [pointChildren_eq_map]
      simp [pointMin]
  | .inter cs =>
    have h2 : cs ≠ [] ∧ WfChildren cs := h
    match cs, h2 with
    | c :: cs2, h2 =>
      rw [evaluate_node, if_neg (by simp),
        evaluate_children_pointwise pts (c :: cs2) h2.2]
      have heq : pointNode (.inter (c :: cs2)) = fun p =>
          pointMax (pointChildren (c :: cs2) p) := by
        funext p; simp [pointNode]
      simp only [Except.map, heq]
      rw [stackReduce_pointwise]
      refine congrArg Except.ok (List.map_congr_left fun p _ => ?_)
      rw [pointChildren_eq_map]
      simp [pointMax]
  | .difference cs =>
    have h2 : cs.length = 2 ∧ WfChildren cs := h
    match cs, h2 with
    | [a, b], h2 =>
      rw [evaluate_node, evaluate_shape_pointwise pts a h2.2.1,
        evaluate_shape_pointwise pts b h2.2.2.1]
      have heq : pointNode (.difference [a, b]) = fun p =>
          max (pointShape a p) (-(pointShape b p)) := by
        funext p; simp [pointNode]
      simp only [Except.bind, bind, heq]
      rw [zipWith_map_same]
      rfl

theorem evaluate_children_pointwise (pts : List Vec3) (cs : List Shape)
    (h : WfChildren cs) :
    evaluate_children pts cs = .ok (cs.map fun c => pts.map (pointShape c)) := by
  match cs with
  | [] => simp [evaluate_children]
  | c :: cs2 =>
    have h2 : WfShape c ∧ WfChildren cs2 := h
    rw [evaluate_children, evaluate_shape_pointwise pts c h2.1,
      evaluate_children_pointwise pts cs2 h2.2]
    simp [Except.bind, bind, pure, Except.pure]

end


/-! ### Chunked grid assembly (C3) -/

theorem chunksOf_nil {α : Type} (n : ℕ) : chunksOf n ([] : List α) = [] := by
  rw [chunksOf]
  simp

theorem chunksOf_cons_eq {α : Type} (n : ℕ) (l : List α) (hl : l ≠ []) (hn : n ≠ 0) :
    chunksOf n l = l.take n :: chunksOf n (l.drop n) := by
  rw [chunksOf, dif_neg (by simp [List.isEmpty_iff, hl, hn])]

theorem chunksOf_flatten (n : ℕ) {α : Type} (hn : n ≠ 0) (l : List α) :
    (chunksOf n l).flatten = l := by
  by_cases hl : l = []
  · subst hl
    simp [chunksOf_nil]
  · rw [chunksOf_cons_eq n l hl hn, List.flatten_cons,
      chunksOf_flatten n hn (l.drop n), List.take_append_drop]
termination_by l.length
decreasing_by
  have := List.length_pos.mpr hl
  simp only [List.length_drop]
  omega

theorem chunksOf_mem_ne_nil {α : Type} (n : ℕ) (hn : n ≠ 0) (l c : List α)
    (hc : c ∈ chunksOf n l) : c ≠ [] := by
  by_cases hl : l = []
  · subst hl
    rw [chunksOf_nil] at hc
    exact absurd hc (List.not_mem_nil c)
  · rw [chunksOf_cons_eq n l hl hn] at hc
    rcases List.mem_cons.mp hc with h1 | h2
    · subst h1
      simp [List.take_eq_nil_iff, hl, hn]
    · exact chunksOf_mem_ne_nil n hn (l.drop n) c h2
termination_by l.length
decreasing_by
  have := List.length_pos.mpr hl
  simp only [List.length_drop]
  omega

theorem chunksOf_append {α : Type} (n : ℕ) (hn : n ≠ 0) (a b : List α)
    (h : n ∣ a.length) :
    chunksOf n (a ++ b) = chunksOf n a ++ chunksOf n b := by
  by_cases ha : a = []
  · subst ha
    simp [chunksOf_nil]
  · have hpos : 0 < a.length := List.length_pos.mpr ha
    have hle : n ≤ a.length := Nat.le_of_dvd hpos h
    have happ : a ++ b ≠ [] := List.append_ne_nil_of_left_ne_nil ha b
    rw [chunksOf_cons_eq n (a ++ b) happ hn, chunksOf_cons_eq n a ha hn,
      List.take_append_of_le_length hle, List.drop_append_of_le_length hle,
      chunksOf_append n hn (a.drop n) b
        (by simp only [List.length_drop]; exact Nat.dvd_sub' h (dvd_refl n))]
    rfl
termination_by a.length
decreasing_by
  simp only [List.length_drop]
  omega


theorem chunksOf_exact {α : Type} (n : ℕ) (hn : n ≠ 0) (l : List α)
    (h : l.length = n) : chunksOf n l = [l] := by
  have hl : l ≠ [] := by
    intro he
    subst he
    simp at h
    exact hn h.symm
  rw [chunksOf_cons_eq n l hl hn, List.take_of_length_le (by omega),
    List.drop_eq_nil_of_le (by omega), chunksOf_nil]

theorem chunksOf_flatMap_exact {α β : Type} (n : ℕ) (hn : n ≠ 0) (g : α → List β)
    (l : List α) (hg : ∀ x ∈ l, (g x).length = n) :
    chunksOf n (l.flatMap g) = l.map g := by
  induction l with
  | nil => simp [chunksOf_nil]
  | cons a t ih =>
    rw [List.flatMap_cons,
      chunksOf_append n hn (g a) (t.flatMap g) (by rw [hg a (by simp)]),
      chunksOf_exact n hn (g a) (hg a (by simp)), ih fun x hx => hg x (by simp [hx])]
    rfl

theorem chunksOf_flatMap_dvd {α β : Type} (n : ℕ) (hn : n ≠ 0) (g : α → List β)
    (l : List α) (hg : ∀ x ∈ l, n ∣ (g x).length) :
    chunksOf n (l.flatMap g) = l.flatMap fun x => chunksOf n (g x) := by
  induction l with
  | nil => simp [chunksOf_nil]
  | cons a t ih =>
    rw [List.flatMap_cons, chunksOf_append n hn (g a) (t.flatMap g) (hg a (by simp)),
      ih fun x hx => hg x (by simp [hx]), List.flatMap_cons]

theorem length_flatMap_const {α β : Type} (g : α → List β) (l : List α) (n : ℕ)
    (h : ∀ x ∈ l, (g x).length = n) : (l.flatMap g).length = l.length * n := by
  induction l with
  | nil => simp
  | cons a t ih =>
    rw [List.flatMap_cons, List.length_append, h a (by simp),
      ih fun x hx => h x (by simp [hx]), List.length_cons]
    ring

theorem linspace_length (a b : ℝ) (n : ℕ) : (linspace a b n).length = n := by
  rw [linspace, List.length_map, List.length_range]

theorem linspace_ne_nil (a b : ℝ) (n : ℕ) (hn : n ≠ 0) : linspace a b n ≠ [] := by
  intro h
  have := linspace_length a b n
  rw [h] at this
  simp at this
  exact hn this.symm

/-- Reshaping the mapped flat grid recovers the nested pointwise field. -/
theorem reshape3_gridField (f : Vec3 → ℝ) (xs ys zc : List ℝ) (hy : ys ≠ [])
    (hz : zc ≠ []) :
    reshape3 ys.length zc.length ((meshgridFlat xs ys zc).map f) =
      gridFieldOf f xs ys zc := by
  have hzn : zc.length ≠ 0 := by simp [hz]
  have hyn : ys.length ≠ 0 := by simp [hy]
  rw [reshape3, meshgridFlat]
  simp only [List.map_flatMap, List.map_map]
  rw [chunksOf_flatMap_dvd zc.length hzn _ xs fun x _ => by
    rw [length_flatMap_const _ ys zc.length fun y _ => by simp]
    exact dvd_mul_left zc.length ys.length]
  have hx : ∀ x : ℝ,
      chunksOf zc.length
          (ys.flatMap fun y => zc.map (f ∘ fun z => (⟨x, y, z⟩ : Vec3))) =
        ys.map fun y => zc.map (f ∘ fun z => (⟨x, y, z⟩ : Vec3)) :=
    fun x => chunksOf_flatMap_exact zc.length hzn _ ys fun y _ => by simp
  simp only [hx]
  rw [chunksOf_flatMap_exact ys.length hyn _ xs fun x _ => by simp]
  simp [gridFieldOf, Function.comp]


/-- Writing two consecutive z-slabs of the pointwise field is writing
their concatenated z-range. -/
theorem appendZ_gridField (f : Vec3 → ℝ) (xs ys c1 c2 : List ℝ) :
    appendZ (gridFieldOf f xs ys c1) (gridFieldOf f xs ys c2) =
      gridFieldOf f xs ys (c1 ++ c2) := by
  rw [appendZ, gridFieldOf, gridFieldOf, zipWith_map_same]
  simp only [zipWith_map_same, ← List.map_append]
  rfl

theorem foldl_appendZ_gridField (f : Vec3 → ℝ) (xs ys : List ℝ) :
    ∀ (cs : List (List ℝ)) (acc : List ℝ),
      (cs.map fun c => gridFieldOf f xs ys c).foldl appendZ (gridFieldOf f xs ys acc) =
        gridFieldOf f xs ys (acc ++ cs.flatten) := by
  intro cs
  induction cs with
  | nil => intro acc; simp
  | cons c t ih =>
    intro acc
    simp only [List.map_cons, List.foldl_cons, List.flatten_cons]
    rw [appendZ_gridField, ih, List.append_assoc]

theorem emptyFieldOf_eq_gridField (f : Vec3 → ℝ) (xs ys : List ℝ) :
    emptyFieldOf xs ys = gridFieldOf f xs ys [] := rfl

/-- C3: for every grid bounds, resolution, chunk size at least 1 and valid
shape spec, slab-by-slab evaluation assembles exactly the scalar field of
a single whole-grid evaluator call (evaluation is pointwise). -/
theorem claim3_chunked_eq_single (resolution : ℕ)
    (bounds : (ℝ × ℝ) × (ℝ × ℝ) × (ℝ × ℝ)) (spec : Shape) (chunk : ℕ)
    (hchunk : 1 ≤ chunk) (hwf : WfShape spec) :
    evaluate_field_chunked resolution bounds spec chunk =
      evaluate_field_single resolution bounds spec := by
  have hev : ∀ pts, evaluate_shape_recursive pts spec =
      .ok (pts.map (pointShape spec)) :=
    fun pts => evaluate_shape_pointwise pts spec hwf
  have hcn : chunk ≠ 0 := by omega
  rw [evaluate_field_chunked, evaluate_field_single]
  rcases Nat.eq_zero_or_pos resolution with hres | hres
  · subst hres
    have hnil : ∀ u v : ℝ, linspace u v 0 = [] := by
      intro u v
      have := linspace_length u v 0
      exact List.length_eq_zero.mp this
    simp only [hnil, chunksOf_nil, meshgridFlat, List.flatMap_nil, hev, List.map_nil]
    simp only [Except.map, emptyFieldOf, reshape3, chunksOf_nil, List.mapM_nil,
      Except.bind, bind, pure, Except.pure, List.map_nil]
    rfl
  · have hresn : resolution ≠ 0 := by omega
    have hys : linspace bounds.2.1.1 bounds.2.1.2 resolution ≠ [] :=
      linspace_ne_nil _ _ _ hresn
    have hzs : linspace bounds.2.2.1 bounds.2.2.2 resolution ≠ [] :=
      linspace_ne_nil _ _ _ hresn
    have hylen : (linspace bounds.2.1.1 bounds.2.1.2 resolution).length = resolution :=
      linspace_length _ _ _
    have hzlen : (linspace bounds.2.2.1 bounds.2.2.2 resolution).length = resolution :=
      linspace_length _ _ _
    set xs := linspace bounds.1.1 bounds.1.2 resolution with hxs
    set ys := linspace bounds.2.1.1 bounds.2.1.2 resolution with hys2
    set zs := linspace bounds.2.2.1 bounds.2.2.2 resolution with hzs2
    have hmapM : (chunksOf chunk zs).mapM
        (fun zc => (evaluate_shape_recursive (meshgridFlat xs ys zc) spec).map
          (reshape3 resolution zc.length)) =
        .ok ((chunksOf chunk zs).map fun zc =>
          gridFieldOf (pointShape spec) xs ys zc) := by
      refine mapM_ok _ _ _ fun zc hzc => ?_
      rw [hev]
      have hzcne : zc ≠ [] := chunksOf_mem_ne_nil chunk hcn zs zc hzc
      have := reshape3_gridField (pointShape spec) xs ys zc hys hzcne
      rw [hylen] at this
      simp only [Except.map]
      rw [this]
    rw [hmapM]
    have hfold : ((chunksOf chunk zs).map fun zc =>
        gridFieldOf (pointShape spec) xs ys zc).foldl appendZ (emptyFieldOf xs ys) =
        gridFieldOf (pointShape spec) xs ys zs := by
      rw [emptyFieldOf_eq_gridField (pointShape spec), foldl_appendZ_gridField,
        List.nil_append, chunksOf_flatten chunk hcn]
    have hsingle := reshape3_gridField (pointShape spec) xs ys zs hys hzs
    rw [hylen] at hsingle
    rw [hev]
    simp only [Except.map, Except.bind, bind]
    rw [hfold, hsingle]
    rfl

theorem claim3_witness :
    1 ≤ 1 ∧ WfShape (.mk ⟨0, 0, 0⟩ 1 (.sphere 1)) ∧
      evaluate_field_chunked 2 ((-1, 1), (-1, 1), (-1, 1))
          (.mk ⟨0, 0, 0⟩ 1 (.sphere 1)) 1 =
        evaluate_field_single 2 ((-1, 1), (-1, 1), (-1, 1))
          (.mk ⟨0, 0, 0⟩ 1 (.sphere 1)) :=
  ⟨le_refl 1, ⟨by norm_num, trivial⟩,
    claim3_chunked_eq_single 2 ((-1, 1), (-1, 1), (-1, 1))
      (.mk ⟨0, 0, 0⟩ 1 (.sphere 1)) 1 (le_refl 1) ⟨by norm_num, trivial⟩⟩


/-! ### Resolver idempotence (C6) -/

/-- Setting a present key keeps the key sequence. -/
theorem dset_keys_mem (d : Params) (k : String) (v : Value)
    (h : k ∈ d.map Prod.fst) :
    (dset d k v).map Prod.fst = d.map Prod.fst := by
  induction d with
  | nil => simp at h
  | cons kv t ih =>
    obtain ⟨k1, v1⟩ := kv
    by_cases hk : k1 = k
    · subst hk
      simp [dset]
    · simp only [List.map_cons] at h
      rcases List.mem_cons.mp h with h1 | h2
    

      · exact absurd h1.symm hk
      · simp [dset, hk, ih h2]

/-- Setting an absent key appends the pair. -/
theorem dset_not_mem (d : Params) (k : String) (v : Value)
    (h : k ∉ d.map Prod.fst) :
    dset d k v = d ++ [(k, v)] := by
  induction d with
  | nil => rfl
  | cons kv t ih =>
    obtain ⟨k1, v1⟩ := kv
    simp only [List.map_cons, List.mem_cons] at h
    push_neg at h
    simp [dset, Ne.symm h.1, ih h.2]

/-- The user overlay loop never touches a head entry whose key is absent
from the update list. -/
theorem overlayUser_cons_head (k : String) (w : Value) (d : Params) :
    ∀ (u : Params), (∀ kv ∈ u, kv.1 ≠ k) →
      overlayUser ((k, w) :: d) u = (k, w) :: overlayUser d u := by
  have step : ∀ (d2 : Params) (kv : String × Value), kv.1 ≠ k →
      (if kv.1 = "type" ∨ kv.1 = "children" then ((k, w) :: d2)
        else dset ((k, w) :: d2) kv.1 kv.2) =
      (k, w) :: (if kv.1 = "type" ∨ kv.1 = "children" then d2 else dset d2 kv.1 kv.2) := by
    intro d2 kv hkv
    by_cases hs : kv.1 = "type" ∨ kv.1 = "children"
    · simp [hs]
    · simp only [if_neg hs]
      simp [dset, Ne.symm hkv]
  intro u
  induction u generalizing d with
  | nil => intro _; rfl
  | cons kv u2 ih =>
    intro hu
    simp only [overlayUser, List.foldl_cons]
    rw [step d kv (hu kv (by simp))]
    by_cases hs : kv.1 = "type" ∨ kv.1 = "children"
    · simp only [if_pos hs]
      exact ih d fun x hx => hu x (by simp [hx])
    · simp only [if_neg hs]
      exact ih (dset d kv.1 kv.2) fun x hx => hu x (by simp [hx])

/-- Re-applying, onto `D`, an update list that has exactly the keys of `D`
(in order, without duplicates, none of them `type`/`children`) reproduces
the update list. -/
theorem overlayUser_reapply_front : ∀ (P D : Params),
    P.map Prod.fst = D.map Prod.fst → (P.map Prod.fst).Nodup →
    (∀ kv ∈ P, ¬(kv.1 = "type" ∨ kv.1 = "children")) →
    overlayUser D P = P := by
  intro P
  induction P with
  | nil =>
    intro D hkeys _ _
    have hD : D = [] := List.map_eq_nil_iff.mp hkeys.symm
    subst hD
    rfl
  | cons kv P2 ih =>
    intro D hkeys hnd hTC
    obtain ⟨k, w⟩ := kv
    match D, hkeys with
    | (k1, v1) :: D2, hkeys =>
      simp only [List.map_cons, List.cons.injEq] at hkeys
      obtain ⟨hk1, hkeys2⟩ := hkeys
      subst hk1
      simp only [overlayUser, List.foldl_cons]
      rw [if_neg (hTC (k, w) (by simp))]
      rw [show dset ((k, v1) :: D2) k w = (k, w) :: D2 from by simp [dset]]
      have hrest : overlayUser ((k, w) :: D2) P2 = (k, w) :: overlayUser D2 P2 := by
        refine overlayUser_cons_head k w D2 P2 fun x hx => ?_
        intro hxk
        have hkmem : k ∈ P2.map Prod.fst := by
          rw [← hxk]
          exact List.mem_map_of_mem Prod.fst hx
        simp only [List.map_cons, List.nodup_cons] at hnd
        exact hnd.1 hkmem
      have : overlayUser ((k, w) :: D2) P2 =
          List.foldl
            (fun acc kv =>
              if kv.1 = "type" ∨ kv.1 = "children" then acc else dset acc kv.1 kv.2)
            ((k, w) :: D2) P2 := rfl
      rw [← this, hrest]
      have hnd2 : (P2.map Prod.fst).Nodup := by
        simp only [List.map_cons, List.nodup_cons] at hnd
        exact hnd.2
      rw [ih D2 hkeys2 hnd2 fun x hx => hTC x (by simp [hx])]


/-- Overlaying update pairs whose keys are all fresh (and neither `type`
nor `children`) appends them in order. -/
theorem overlayUser_append_fresh : ∀ (Q D : Params),
    (∀ kv ∈ Q, kv.1 ∉ D.map Prod.fst) → (Q.map Prod.fst).Nodup →
    (∀ kv ∈ Q, ¬(kv.1 = "type" ∨ kv.1 = "children")) →
    overlayUser D Q = D ++ Q := by
  intro Q
  induction Q with
  | nil => intro D _ _ _; simp [overlayUser]
  | cons kv Q2 ih =>
    intro D hfresh hnd hTC
    obtain ⟨k, v⟩ := kv
    simp only [overlayUser, List.foldl_cons]
    rw [if_neg (hTC (k, v) (by simp)),
      dset_not_mem D k v (hfresh (k, v) (by simp))]
    have : List.foldl
        (fun acc kv =>
          if kv.1 = "type" ∨ kv.1 = "children" then acc else dset acc kv.1 kv.2)
        (D ++ [(k, v)]) Q2 = overlayUser (D ++ [(k, v)]) Q2 := rfl
    rw [this, ih (D ++ [(k, v)]) ?hf ?hn ?ht]
    · simp
    case hf =>
      intro x hx
      simp only [List.map_append, List.mem_append, List.map_cons, List.map_nil]
      push_neg
      constructor
      · exact hfresh x (by simp [hx])
      · intro hxk
        simp only [List.mem_singleton] at hxk
        simp only [List.map_cons, List.nodup_cons] at hnd
        exact absurd (hxk ▸ List.mem_map_of_mem Prod.fst hx) hnd.1
    case hn =>
      simp only [List.map_cons, List.nodup_cons] at hnd
      exact hnd.2
    case ht => exact fun x hx => hTC x (by simp [hx])

/-- Re-applying a resolved entry list onto the defaulted dictionary it was
built from reproduces it: its keys are the defaulted keys followed by the
fresh user keys. -/
theorem overlayUser_self (D R : Params) (ex : List String)
    (hkeys : R.map Prod.fst = D.map Prod.fst ++ ex)
    (hnd : (R.map Prod.fst).Nodup)
    (hTC : ∀ kv ∈ R, ¬(kv.1 = "type" ∨ kv.1 = "children")) :
    overlayUser D R = R := by
  have hsplit : R = R.take D.length ++ R.drop D.length := (List.take_append_drop _ R).symm
  have hlenD : (D.map Prod.fst).length = D.length := List.length_map D Prod.fst
  have hkP : (R.take D.length).map Prod.fst = D.map Prod.fst := by
    rw [List.map_take, hkeys, ← hlenD, List.take_left]
  have hkQ : (R.drop D.length).map Prod.fst = ex := by
    rw [List.map_drop, hkeys, ← hlenD, List.drop_left]
  have hndPQ : ((R.take D.length).map Prod.fst ++ (R.drop D.length).map Prod.fst).Nodup := by
    rw [← List.map_append, ← hsplit]
    exact hnd
  have hndP : ((R.take D.length).map Prod.fst).Nodup := hndPQ.of_append_left
  have hndQ : ((R.drop D.length).map Prod.fst).Nodup := hndPQ.of_append_right
  have hdisj : ∀ kv ∈ R.drop D.length, kv.1 ∉ (R.take D.length).map Prod.fst := by
    intro kv hkv hmem
    have hd := List.disjoint_of_nodup_append hndPQ
    exact hd hmem (List.mem_map_of_mem Prod.fst hkv)
  have hTCP : ∀ kv ∈ R.take D.length, ¬(kv.1 = "type" ∨ kv.1 = "children") :=
    fun kv hkv => hTC kv (hsplit ▸ List.mem_append_left _ hkv)
  have hTCQ : ∀ kv ∈ R.drop D.length, ¬(kv.1 = "type" ∨ kv.1 = "children") :=
    fun kv hkv => hTC kv (hsplit ▸ List.mem_append_right _ hkv)
  calc overlayUser D R = overlayUser D (R.take D.length ++ R.drop D.length) := by
        rw [← hsplit]
    _ = overlayUser (overlayUser D (R.take D.length)) (R.drop D.length) := by
        simp only [overlayUser, List.foldl_append]
    _ = overlayUser (R.take D.length) (R.drop D.length) := by
        rw [overlayUser_reapply_front (R.take D.length) D hkP hndP hTCP]
    _ = R.take D.length ++ R.drop D.length :=
        overlayUser_append_fresh (R.drop D.length) (R.take D.length) hdisj hndQ hTCQ
    _ = R := hsplit.symm


/-- Overlaying any update list onto a duplicate-free dictionary yields the
original keys followed by some fresh keys, still duplicate-free, and every
fresh key avoids `type`/`children`. -/
theorem overlayUser_invariant : ∀ (u R : Params), (R.map Prod.fst).Nodup →
    ∃ ex, (overlayUser R u).map Prod.fst = R.map Prod.fst ++ ex ∧
      ((overlayUser R u).map Prod.fst).Nodup ∧
      ∀ k ∈ ex, ¬(k = "type" ∨ k = "children") := by
  intro u
  induction u with
  | nil =>
    intro R hnd
    exact ⟨[], by simp [overlayUser], by simpa [overlayUser] using hnd, by simp⟩
  | cons kv u2 ih =>
    intro R hnd
    have hstep : overlayUser R (kv :: u2) =
        overlayUser
          (if kv.1 = "type" ∨ kv.1 = "children" then R else dset R kv.1 kv.2) u2 := by
      simp only [overlayUser, List.foldl_cons]
    by_cases hs : kv.1 = "type" ∨ kv.1 = "children"
    · rw [hstep, if_pos hs]
      exact ih R hnd
    · rw [hstep, if_neg hs]
      by_cases hmem : kv.1 ∈ R.map Prod.fst
      · have hkeys := dset_keys_mem R kv.1 kv.2 hmem
        obtain ⟨ex, h1, h2, h3⟩ := ih (dset R kv.1 kv.2) (by rw [hkeys]; exact hnd)
        exact ⟨ex, by rw [h1, hkeys], h2, h3⟩
      · have hkeys : (dset R kv.1 kv.2).map Prod.fst = R.map Prod.fst ++ [kv.1] := by
          rw [dset_not_mem R kv.1 kv.2 hmem]
          simp
        have hnd2 : ((dset R kv.1 kv.2).map Prod.fst).Nodup := by
          rw [hkeys]
          refine List.Nodup.append hnd (List.nodup_singleton kv.1) ?_
          intro a ha hb
          simp only [List.mem_singleton] at hb
          exact hmem (hb ▸ ha)
        obtain ⟨ex, h1, h2, h3⟩ := ih (dset R kv.1 kv.2) hnd2
        refine ⟨kv.1 :: ex, ?_, h2, ?_⟩
        · rw [h1, hkeys, List.append_assoc]
          rfl
        · intro k hk
          rcases List.mem_cons.mp hk with h4 | h4
          · subst h4; exact hs
          · exact h3 k h4


/-- On an update list free of `type`/`children` keys, the user overlay
coincides with the plain defaults overlay. -/
theorem overlayDefaults_eq_overlayUser : ∀ (u d : Params),
    (∀ kv ∈ u, ¬(kv.1 = "type" ∨ kv.1 = "children")) →
    overlayDefaults d u = overlayUser d u := by
  intro u
  induction u with
  | nil => intro d _; rfl
  | cons kv u2 ih =>
    intro d hu
    simp only [overlayDefaults, overlayUser, List.foldl_cons,
      if_neg (hu kv (by simp))]
    exact ih (dset d kv.1 kv.2) fun x hx => hu x (by simp [hx])

/-- A successful association-list lookup returns a stored value. -/
theorem lookup_mem_values {β : Type} (l : List (String × β)) (a : String) (b : β)
    (h : l.lookup a = some b) : ∃ p ∈ l, p.2 = b := by
  induction l with
  | nil => simp [List.lookup] at h
  | cons kv t ih =>
    rw [List.lookup] at h
    cases hb : (a == kv.1) with
    | true =>
      rw [hb] at h
      have h2 : kv.2 = b := by injection h
      exact ⟨kv, by simp, h2⟩
    | false =>
      rw [hb] at h
      obtain ⟨p, hp, he⟩ := ih h
      exact ⟨p, by simp [hp], he⟩

/-- No default parameter table carries a `type` or `children` key. -/
theorem defaultShapeParams_clean (ty : String) :
    ∀ kv ∈ defaultShapeParams ty, ¬(kv.1 = "type" ∨ kv.1 = "children") := by
  have hall : ∀ p ∈ defaultsTable, ∀ kv ∈ p.2, ¬(kv.1 = "type" ∨ kv.1 = "children") := by
    decide
  rw [defaultShapeParams]
  cases h : defaultsTable.lookup ty with
  | none => simp
  | some ps =>
    obtain ⟨p, hp, he⟩ := lookup_mem_values defaultsTable ty ps h
    simpa [he] using hall p hp

/-- The entry list a resolved spec carries is a fixed point of defaulting:
overlaying it back onto its own defaulted base reproduces it. -/
theorem resolvedEntries_stable (ty : String) (entries : Params) :
    overlayUser (overlayDefaults baseDefaults (defaultShapeParams ty))
        (overlayUser (overlayDefaults baseDefaults (defaultShapeParams ty)) entries) =
      overlayUser (overlayDefaults baseDefaults (defaultShapeParams ty)) entries := by
  have hTFd := defaultShapeParams_clean ty
  have hD0u : overlayDefaults baseDefaults (defaultShapeParams ty) =
      overlayUser baseDefaults (defaultShapeParams ty) :=
    overlayDefaults_eq_overlayUser (defaultShapeParams ty) baseDefaults hTFd
  have hbase_nodup : ((baseDefaults).map Prod.fst).Nodup := by decide
  have hbase_clean : ∀ k ∈ baseDefaults.map Prod.fst, ¬(k = "type" ∨ k = "children") := by
    decide
  obtain ⟨ex0, hk0, hnd0, hTF0⟩ :=
    overlayUser_invariant (defaultShapeParams ty) baseDefaults hbase_nodup
  have hkD0 : (overlayDefaults baseDefaults (defaultShapeParams ty)).map Prod.fst =
      baseDefaults.map Prod.fst ++ ex0 := by rw [hD0u]; exact hk0
  have hndD0 : ((overlayDefaults baseDefaults (defaultShapeParams ty)).map Prod.fst).Nodup := by
    rw [hD0u]; exact hnd0
  have hcleanD0 : ∀ k ∈ (overlayDefaults baseDefaults (defaultShapeParams ty)).map Prod.fst,
      ¬(k = "type" ∨ k = "children") := by
    rw [hkD0]
    intro k hk
    rcases List.mem_append.mp hk with h1 | h1
    · exact hbase_clean k h1
    · exact hTF0 k h1
  obtain ⟨ex1, hk1, hnd1, hTF1⟩ :=
    overlayUser_invariant entries (overlayDefaults baseDefaults (defaultShapeParams ty)) hndD0
  refine overlayUser_self _ _ ex1 hk1 hnd1 ?_
  intro kv hkv
  have hkmem : kv.1 ∈
      (overlayUser (overlayDefaults baseDefaults (defaultShapeParams ty)) entries).map
        Prod.fst := List.mem_map_of_mem Prod.fst hkv
  rw [hk1] at hkmem
  rcases List.mem_append.mp hkmem with h1 | h1
  · exact hcleanD0 kv.1 h1
  · exact hTF1 kv.1 h1


mutual

/-- Resolving an already-resolved spec changes nothing. -/
theorem merge_defaults_idem (x y : PSpec) (h : merge_defaults x = some y) :
    merge_defaults y = some y := by
  match x with
  | .mk ty entries children =>
    by_cases hc : evaluatorNames.contains ty
    · rw [merge_defaults, if_pos hc] at h
      match children with
      | none =>
        simp only [Option.some.injEq] at h
        subst h
        rw [merge_defaults, if_pos hc]
        simp only [Option.some.injEq]
        rw [resolvedEntries_stable]
      | some cs =>
        simp only at h
        cases hm : mergeChildrenList cs with
        | none => rw [hm] at h; simp at h
        | some ds =>
          rw [hm] at h
          simp only [Option.map, Option.some.injEq] at h
          subst h
          rw [merge_defaults, if_pos hc]
          simp only
          rw [mergeChildrenList_idem cs ds hm]
          simp only [Option.map, Option.some.injEq]
          rw [resolvedEntries_stable]
    · rw [merge_defaults, if_neg hc] at h
      exact absurd h (by simp)

/-- Re-resolving a list of resolved children changes nothing. -/
theorem mergeChildrenList_idem (cs ds : List PSpec)
    (h : mergeChildrenList cs = some ds) : mergeChildrenList ds = some ds := by
  match cs with
  | [] =>
    rw [mergeChildrenList] at h
    simp only [Option.some.injEq] at h
    subst h
    rfl
  | c :: cs2 =>
    rw [mergeChildrenList] at h
    cases hd : merge_defaults c with
    | none => rw [hd] at h; simp [Option.bind, bind] at h
    | some d =>
      rw [hd] at h
      cases hds2 : mergeChildrenList cs2 with
      | none => rw [hds2] at h; simp [Option.bind, bind] at h
      | some ds2 =>
        rw [hds2] at h
        simp only [Option.bind, bind, pure, Option.some.injEq] at h
        subst h
        rw [mergeChildrenList, merge_defaults_idem c d hd,
          mergeChildrenList_idem cs2 ds2 hds2]
        rfl

end


/-- C6: the specification resolver is idempotent: whenever a partial spec
resolves successfully, resolving the resolved output again produces an
equal spec, recursively including all children. -/
theorem claim6_resolver_idempotent (x y : PSpec) (h : merge_defaults x = some y) :
    merge_defaults y = some y :=
  merge_defaults_idem x y h

theorem claim6_witness :
    merge_defaults
        (PSpec.mk "sdf_union" []
          (some [PSpec.mk "sdf_sphere" [("radius", Value.num 2)] none])) =
      some (PSpec.mk "sdf_union"
        [("translate", Value.arr [Value.num 0, Value.num 0, Value.num 0]),
         ("scale", Value.num 1)]
        (some [PSpec.mk "sdf_sphere"
          [("translate", Value.arr [Value.num 0, Value.num 0, Value.num 0]),
           ("scale", Value.num 1), ("radius", Value.num 2)] none])) ∧
      merge_defaults
          (PSpec.mk "sdf_union"
            [("translate", Value.arr [Value.num 0, Value.num 0, Value.num 0]),
             ("scale", Value.num 1)]
            (some [PSpec.mk "sdf_sphere"
              [("translate", Value.arr [Value.num 0, Value.num 0, Value.num 0]),
               ("scale", Value.num 1), ("radius", Value.num 2)] none])) =
        some (PSpec.mk "sdf_union"
          [("translate", Value.arr [Value.num 0, Value.num 0, Value.num 0]),
           ("scale", Value.num 1)]
          (some [PSpec.mk "sdf_sphere"
            [("translate", Value.arr [Value.num 0, Value.num 0, Value.num 0]),
             ("scale", Value.num 1), ("radius", Value.num 2)] none])) := by
  refine ⟨rfl, claim6_resolver_idempotent
    (PSpec.mk "sdf_union" []
      (some [PSpec.mk "sdf_sphere" [("radius", Value.num 2)] none])) _ rfl⟩

end SDF
